import Mathlib

/-!
# Verification of the Miratope combinatorial core

This file gives a shallow embedding, in Lean 4, of the combinatorial core of
the Miratope polytope library:

* the ranked element model (`Poly`): a polytope stored as an element list,
  rank 0 holding vertices (coordinate lists) and each higher rank holding
  cells as lists of indices into the rank below
  (`src/ts/polytopes/types`, `polytopeTypes`);
* the product engine (`src/ts/polytopes/classes/Product.ts`):
  `_prism`, `_tegum`, `_pyramid` and the index bookkeeping functions
  `getIndexOfPrismProduct` / `getIndexOfTegumProduct`;
* the primitive builders of `polytopeBuild`
  (`hypercube`, `simplex`, `cross`, `regularPolygon`, `dyad`, `point`,
  `nullitope`);
* the connectivity test `FileOperations.checkCommonElements` and the
  component extraction of the OFF reader;
* the guard of `saveAsOFF` (`src/ts/files/OFF.ts`).

JavaScript `number` values appear in the source only as exact halves and
integers in everything proved here, so coordinates are embedded as `ℚ`;
builders whose coordinates involve square roots or trigonometry
(simplex, cross, regular polygons) are embedded with the vertex
construction abstracted into a parameter, since every property proved about
them is purely combinatorial.

JavaScript's 32-bit `&`, `^` and `& ~` are embedded by the fuel-based
binary recursions `jand`, `jxor`, `jdiff` below (all arguments in scope are
far below 2^32, where the JS operators agree with the unbounded versions).
-/

/-! ## Bitwise operations (JS `&`, `^`, `& ~`)

`bitZipF c fuel a b` combines `a` and `b` bit by bit with the combiner `c`
(which must satisfy `c 0 0 = 0`); the fuel argument only drives the
structural recursion and is irrelevant once it bounds both arguments. -/

def bitZipF (c : Nat → Nat → Nat) : Nat → Nat → Nat → Nat
  | 0, _, _ => 0
  | fuel + 1, a, b => 2 * bitZipF c fuel (a / 2) (b / 2) + c (a % 2) (b % 2)

def bitZip (c : Nat → Nat → Nat) (a b : Nat) : Nat :=
  bitZipF c (a + b + 1) a b

theorem bitZipF_zero_zero (c : Nat → Nat → Nat) (hc : c 0 0 = 0) :
    ∀ fuel, bitZipF c fuel 0 0 = 0 := by
  intro fuel
  induction fuel with
  | zero => rfl
  | succ f ih => simp [bitZipF, ih, hc]

theorem bitZipF_fuel_irrel (c : Nat → Nat → Nat) (hc : c 0 0 = 0) :
    ∀ f g a b, a < 2 ^ f → b < 2 ^ f → a < 2 ^ g → b < 2 ^ g →
      bitZipF c f a b = bitZipF c g a b := by
  intro f
  induction f with
  | zero =>
    intro g a b ha hb _ _
    have ha0 : a = 0 := by simpa using Nat.lt_one_iff.mp (by simpa using ha)
    have hb0 : b = 0 := by simpa using Nat.lt_one_iff.mp (by simpa using hb)
    subst ha0; subst hb0
    rw [bitZipF_zero_zero c hc, bitZipF_zero_zero c hc]
  | succ f ih =>
    intro g a b ha hb hag hbg
    cases g with
    | zero =>
      have ha0 : a = 0 := by simpa using Nat.lt_one_iff.mp (by simpa using hag)
      have hb0 : b = 0 := by simpa using Nat.lt_one_iff.mp (by simpa using hbg)
      subst ha0; subst hb0
      rw [bitZipF_zero_zero c hc, bitZipF_zero_zero c hc]
    | succ g =>
      have hdiv : ∀ x n, x < 2 ^ (n + 1) → x / 2 < 2 ^ n := by
        intro x n hx
        exact Nat.div_lt_of_lt_mul (by rw [Nat.pow_succ, Nat.mul_comm] at hx; exact hx)
      simp only [bitZipF]
      rw [ih g (a / 2) (b / 2) (hdiv a f ha) (hdiv b f hb) (hdiv a g hag) (hdiv b g hbg)]

/-- Unfolding equation for `bitZip`: one step of the binary recursion. -/
theorem bitZip_unfold (c : Nat → Nat → Nat) (hc : c 0 0 = 0) (a b : Nat) :
    bitZip c a b = 2 * bitZip c (a / 2) (b / 2) + c (a % 2) (b % 2) := by
  show bitZipF c (a + b + 1) a b = _
  simp only [bitZipF]
  congr 1
  congr 1
  apply bitZipF_fuel_irrel c hc
  · calc a / 2 ≤ a := Nat.div_le_self a 2
      _ < 2 ^ a := Nat.lt_two_pow a
      _ ≤ 2 ^ (a + b) := Nat.pow_le_pow_right (by omega) (by omega)
  · calc b / 2 ≤ b := Nat.div_le_self b 2
      _ < 2 ^ b := Nat.lt_two_pow b
      _ ≤ 2 ^ (a + b) := Nat.pow_le_pow_right (by omega) (by omega)
  · calc a / 2 < 2 ^ (a / 2) := Nat.lt_two_pow _
      _ ≤ 2 ^ (a / 2 + b / 2 + 1) := Nat.pow_le_pow_right (by omega) (by omega)
  · calc b / 2 < 2 ^ (b / 2) := Nat.lt_two_pow _
      _ ≤ 2 ^ (a / 2 + b / 2 + 1) := Nat.pow_le_pow_right (by omega) (by omega)

/-- JS `a & b` on the naturals in scope. -/
def jand (a b : Nat) : Nat := bitZip (fun x y => x * y) a b

/-- JS `a ^ b` on the naturals in scope. -/
def jxor (a b : Nat) : Nat := bitZip (fun x y => (x + y) % 2) a b

/-- JS `a & ~b` on the naturals in scope. -/
def jdiff (a b : Nat) : Nat := bitZip (fun x y => x * (1 - y)) a b

theorem jand_unfold (a b : Nat) :
    jand a b = 2 * jand (a / 2) (b / 2) + (a % 2) * (b % 2) :=
  bitZip_unfold _ rfl a b

theorem jxor_unfold (a b : Nat) :
    jxor a b = 2 * jxor (a / 2) (b / 2) + (a % 2 + b % 2) % 2 :=
  bitZip_unfold _ rfl a b

theorem jdiff_unfold (a b : Nat) :
    jdiff a b = 2 * jdiff (a / 2) (b / 2) + (a % 2) * (1 - b % 2) :=
  bitZip_unfold _ rfl a b

theorem jand_zero_zero : jand 0 0 = 0 := rfl

theorem jand_zero_left (b : Nat) : jand 0 b = 0 := by
  induction b using Nat.strong_induction_on with
  | _ b ih =>
    rw [jand_unfold]
    rcases Nat.eq_zero_or_pos b with hb | hb
    · subst hb; simp [jand_zero_zero]
    · rw [Nat.zero_div, ih (b / 2) (Nat.div_lt_self hb (by omega))]; simp

theorem jand_zero_right (a : Nat) : jand a 0 = 0 := by
  induction a using Nat.strong_induction_on with
  | _ a ih =>
    rw [jand_unfold]
    rcases Nat.eq_zero_or_pos a with ha | ha
    · subst ha; simp [jand_zero_zero]
    · rw [Nat.zero_div, ih (a / 2) (Nat.div_lt_self ha (by omega))]; simp

theorem jand_le_right (a b : Nat) : jand a b ≤ b := by
  induction b using Nat.strong_induction_on generalizing a with
  | _ b ih =>
    rw [jand_unfold]
    rcases Nat.eq_zero_or_pos b with hb | hb
    · subst hb; simp [jand_zero_right]
    · have h1 : jand (a / 2) (b / 2) ≤ b / 2 := ih (b / 2) (Nat.div_lt_self hb (by omega)) (a / 2)
      have h2 : a % 2 * (b % 2) ≤ b % 2 :=
        calc a % 2 * (b % 2) ≤ 1 * (b % 2) := Nat.mul_le_mul_right _ (by omega)
          _ = b % 2 := one_mul _
      omega

theorem bitZip_zero_zero (c : Nat → Nat → Nat) (hc : c 0 0 = 0) : bitZip c 0 0 = 0 :=
  bitZipF_zero_zero c hc _

theorem jand_self (t : Nat) : jand t t = t := by
  induction t using Nat.strong_induction_on with
  | _ t ih =>
    rcases Nat.eq_zero_or_pos t with ht | ht
    · subst ht; exact jand_zero_zero
    · rw [jand_unfold, ih (t / 2) (Nat.div_lt_self ht (by omega))]
      rcases Nat.mod_two_eq_zero_or_one t with h | h <;> rw [h] <;> omega

theorem jdiff_self (t : Nat) : jdiff t t = 0 := by
  induction t using Nat.strong_induction_on with
  | _ t ih =>
    rcases Nat.eq_zero_or_pos t with ht | ht
    · subst ht; exact bitZip_zero_zero _ rfl
    · rw [jdiff_unfold, ih (t / 2) (Nat.div_lt_self ht (by omega))]
      rcases Nat.mod_two_eq_zero_or_one t with h | h <;> simp [h]

/-- Parity unfoldings of `jand`: how JS `&` acts on the low bit. -/
theorem jand_bit (q b p b' : Nat) (hb : b ≤ 1) (hb' : b' ≤ 1) :
    jand (2 * q + b) (2 * p + b') = 2 * jand q p + b * b' := by
  rw [jand_unfold]
  have h1 : (2 * q + b) / 2 = q := by omega
  have h2 : (2 * p + b') / 2 = p := by omega
  have h3 : (2 * q + b) % 2 = b := by omega
  have h4 : (2 * p + b') % 2 = b' := by omega
  rw [h1, h2, h3, h4]

theorem jdiff_bit (q b p b' : Nat) (hb : b ≤ 1) (hb' : b' ≤ 1) :
    jdiff (2 * q + b) (2 * p + b') = 2 * jdiff q p + b * (1 - b') := by
  rw [jdiff_unfold]
  have h1 : (2 * q + b) / 2 = q := by omega
  have h2 : (2 * p + b') / 2 = p := by omega
  have h3 : (2 * q + b) % 2 = b := by omega
  have h4 : (2 * p + b') % 2 = b' := by omega
  rw [h1, h2, h3, h4]

theorem jxor_bit (q b p b' : Nat) (hb : b ≤ 1) (hb' : b' ≤ 1) :
    jxor (2 * q + b) (2 * p + b') = 2 * jxor q p + (b + b') % 2 := by
  rw [jxor_unfold]
  have h1 : (2 * q + b) / 2 = q := by omega
  have h2 : (2 * p + b') / 2 = p := by omega
  have h3 : (2 * q + b) % 2 = b := by omega
  have h4 : (2 * p + b') % 2 = b' := by omega
  rw [h1, h2, h3, h4]

/-! ## The lowest-set-bit extraction loop

The source extracts the components of a bit mask with
`difference & ~(difference - 1)` (lowest set bit) and
`difference & (difference - 1)` (clear the lowest set bit), repeated until
the mask is exhausted (`polytopeBuild.hypercube`, `simplex`, `cross`). -/

/-- JS `t & ~(t - 1)`: the lowest set bit of `t`. -/
def lowBit (t : Nat) : Nat := jdiff t (t - 1)

/-- JS `t & (t - 1)`: `t` with its lowest set bit cleared. -/
def dropLow (t : Nat) : Nat := jand t (t - 1)

theorem dropLow_lt (t : Nat) (ht : 0 < t) : dropLow t < t :=
  Nat.lt_of_le_of_lt (jand_le_right t (t - 1)) (by omega)

/-- The list of single-bit components of `t`, lowest first, as produced by
the do/while extraction loop in the source. -/
def bitListF : Nat → Nat → List Nat
  | 0, _ => []
  | fuel + 1, t => if t = 0 then [] else lowBit t :: bitListF fuel (dropLow t)

def bitList (t : Nat) : List Nat := bitListF t t

theorem bitListF_zero (fuel : Nat) : bitListF fuel 0 = [] := by
  cases fuel <;> simp [bitListF]

theorem bitListF_fuel_irrel : ∀ f g t, t ≤ f → t ≤ g → bitListF f t = bitListF g t := by
  intro f
  induction f with
  | zero =>
    intro g t hf _
    have : t = 0 := by omega
    subst this
    rw [bitListF_zero, bitListF_zero]
  | succ f ih =>
    intro g t hf hg
    rcases Nat.eq_zero_or_pos t with ht | ht
    · subst ht; rw [bitListF_zero, bitListF_zero]
    cases g with
    | zero => omega
    | succ g =>
      simp only [bitListF, if_neg (by omega : ¬ t = 0)]
      have hd : dropLow t ≤ t - 1 := jand_le_right t (t - 1)
      rw [ih g (dropLow t) (by omega) (by omega)]

theorem bitList_unfold (t : Nat) (ht : t ≠ 0) :
    bitList t = lowBit t :: bitList (dropLow t) := by
  show bitListF t t = _
  cases t with
  | zero => omega
  | succ t =>
    simp only [bitListF, if_neg ht]
    congr 1
    exact bitListF_fuel_irrel t (dropLow (t + 1)) (dropLow (t + 1))
      (by have := jand_le_right (t + 1) t; simpa [dropLow] using this) (le_refl _)

theorem bitList_zero : bitList 0 = [] := rfl

/-- The population count (number of set bits), as counted by the source's
`elementDimension` accumulation. -/
def pc (t : Nat) : Nat := (bitList t).length

theorem pc_zero : pc 0 = 0 := rfl

theorem pc_succ_drop (t : Nat) (ht : t ≠ 0) : pc t = pc (dropLow t) + 1 := by
  unfold pc
  rw [bitList_unfold t ht]
  simp

theorem pc_eq_zero_iff (t : Nat) : pc t = 0 ↔ t = 0 := by
  constructor
  · intro h
    by_contra ht
    rw [pc_succ_drop t ht] at h
    omega
  · intro h; subst h; rfl

theorem lowBit_two_mul (t : Nat) : lowBit (2 * t) = 2 * lowBit t := by
  unfold lowBit
  rcases Nat.eq_zero_or_pos t with ht | ht
  · subst ht; simp [jdiff_self]
  · have h : 2 * t - 1 = 2 * (t - 1) + 1 := by omega
    rw [h]
    have h2 : 2 * t = 2 * t + 0 := by omega
    rw [h2, jdiff_bit t 0 (t - 1) 1 (by omega) (by omega)]
    omega

theorem dropLow_two_mul (t : Nat) : dropLow (2 * t) = 2 * dropLow t := by
  unfold dropLow
  rcases Nat.eq_zero_or_pos t with ht | ht
  · subst ht; simp [jand_zero_zero]
  · have h : 2 * t - 1 = 2 * (t - 1) + 1 := by omega
    rw [h]
    have h2 : 2 * t = 2 * t + 0 := by omega
    rw [h2, jand_bit t 0 (t - 1) 1 (by omega) (by omega)]
    omega

theorem lowBit_two_mul_add_one (t : Nat) : lowBit (2 * t + 1) = 1 := by
  unfold lowBit
  have h : 2 * t + 1 - 1 = 2 * t + 0 := by omega
  rw [h, jdiff_bit t 1 t 0 (by omega) (by omega), jdiff_self]

theorem dropLow_two_mul_add_one (t : Nat) : dropLow (2 * t + 1) = 2 * t := by
  unfold dropLow
  have h : 2 * t + 1 - 1 = 2 * t + 0 := by omega
  rw [h, jand_bit t 1 t 0 (by omega) (by omega), jand_self]
  omega

theorem pc_two_mul (t : Nat) : pc (2 * t) = pc t := by
  induction t using Nat.strong_induction_on with
  | _ t ih =>
    rcases Nat.eq_zero_or_pos t with ht | ht
    · subst ht; rfl
    · have h2t : 2 * t ≠ 0 := by omega
      rw [pc_succ_drop (2 * t) h2t, dropLow_two_mul, ih (dropLow t) (dropLow_lt t ht),
        pc_succ_drop t (by omega)]

theorem pc_two_mul_add_one (t : Nat) : pc (2 * t + 1) = pc t + 1 := by
  rw [pc_succ_drop (2 * t + 1) (by omega), dropLow_two_mul_add_one, pc_two_mul]

/-! ## Counting bit masks

The cardinality facts used by the simplex and cross-polytope builders:
among `0 ≤ i < 2^n` there are `C(n, c)` masks with `c` set bits, and a mask
with `c` set bits has `2^c` sub-masks. -/

theorem list_range_two_mul (m : Nat) :
    List.range (2 * m) = (List.range m).flatMap (fun t => [2 * t, 2 * t + 1]) := by
  induction m with
  | zero => rfl
  | succ m ih =>
    have h : 2 * (m + 1) = (2 * m + 1) + 1 := by omega
    rw [h, List.range_succ, List.range_succ, List.range_succ, List.flatMap_append, ← ih]
    simp

theorem countP_flatMap {α β : Type} (p : β → Bool) (l : List α) (f : α → List β) :
    (l.flatMap f).countP p = (l.map (fun a => (f a).countP p)).sum := by
  induction l with
  | nil => rfl
  | cons x xs ih => simp [List.flatMap_cons, List.countP_append, ih]

theorem sum_map_congr {α : Type} (l : List α) (f g : α → Nat)
    (h : ∀ a ∈ l, f a = g a) : (l.map f).sum = (l.map g).sum := by
  rw [List.map_congr_left h]

theorem sum_map_ite_const {α : Type} (l : List α) (p : α → Bool) (c : Nat) :
    (l.map (fun a => if p a then c else 0)).sum = c * l.countP p := by
  induction l with
  | nil => simp
  | cons x xs ih =>
    simp only [List.map_cons, List.sum_cons, ih, List.countP_cons]
    by_cases h : p x <;> simp [h] <;> ring

/-- Among `0 ≤ i < 2^n` there are exactly `C(n, c)` masks with `c` set bits. -/
theorem countP_pc_range (n c : Nat) :
    (List.range (2 ^ n)).countP (fun i => pc i == c) = Nat.choose n c := by
  induction n generalizing c with
  | zero =>
    cases c with
    | zero => decide
    | succ c =>
      rw [pow_zero, Nat.choose_zero_succ]
      apply List.countP_eq_zero.mpr
      intro a ha
      have : a = 0 := by simpa using ha
      subst this
      simp [pc_zero]
  | succ n ih =>
    have h2 : 2 ^ (n + 1) = 2 * 2 ^ n := by ring
    rw [h2, list_range_two_mul, countP_flatMap]
    have hpt : ∀ t : Nat, ([2 * t, 2 * t + 1].countP (fun i => pc i == c)) =
        (if pc t == c then 1 else 0) + (if pc t + 1 == c then 1 else 0) := by
      intro t
      simp only [List.countP_cons, List.countP_nil, pc_two_mul, pc_two_mul_add_one]
      by_cases h1 : pc t == c <;> by_cases h2 : pc t + 1 == c <;> simp [h1, h2]
    rw [sum_map_congr _ _ _ (fun t _ => hpt t)]
    have hsplit : ((List.range (2 ^ n)).map (fun t =>
        (if pc t == c then 1 else 0) + (if pc t + 1 == c then 1 else 0))).sum =
        ((List.range (2 ^ n)).map (fun t => if pc t == c then 1 else 0)).sum +
        ((List.range (2 ^ n)).map (fun t => if pc t + 1 == c then 1 else 0)).sum := by
      induction (List.range (2 ^ n)) with
      | nil => rfl
      | cons x xs ihx => simp only [List.map_cons, List.sum_cons, ihx]; ring
    rw [hsplit, sum_map_ite_const _ _ 1, sum_map_ite_const _ _ 1, one_mul, one_mul, ih c]
    cases c with
    | zero =>
      have : (List.range (2 ^ n)).countP (fun t => pc t + 1 == 0) = 0 := by
        apply List.countP_eq_zero.mpr
        intro t _
        simp
      rw [this, Nat.choose_zero_right, Nat.choose_zero_right]
    | succ c =>
      have : (List.range (2 ^ n)).countP (fun t => pc t + 1 == c + 1) =
          (List.range (2 ^ n)).countP (fun t => pc t == c) := by
        apply List.countP_congr
        intro t _
        simp
      rw [this, ih c, Nat.choose_succ_succ]
      simp only [Nat.succ_eq_add_one]
      omega

/-- A mask `i < 2^n` has exactly `2^(pc i)` sub-masks `j < 2^n`
(`j` is a sub-mask of `i` iff JS `(i & j) == j`). -/
theorem countP_submask_range (n : Nat) :
    ∀ i, i < 2 ^ n →
      (List.range (2 ^ n)).countP (fun j => jand i j == j) = 2 ^ pc i := by
  induction n with
  | zero =>
    intro i hi
    have : i = 0 := by simpa using Nat.lt_one_iff.mp (by simpa using hi)
    subst this
    decide
  | succ n ih =>
    intro i hi
    have h2 : 2 ^ (n + 1) = 2 * 2 ^ n := by ring
    rw [h2, list_range_two_mul, countP_flatMap]
    have hq : i / 2 < 2 ^ n := by
      apply Nat.div_lt_of_lt_mul
      rw [h2] at hi
      omega
    have hib : i = 2 * (i / 2) + i % 2 := by omega
    have hpt : ∀ t : Nat, ([2 * t, 2 * t + 1].countP (fun j => jand i j == j)) =
        (if jand (i / 2) t == t then 1 + i % 2 else 0) := by
      intro t
      have he : jand i (2 * t) = 2 * jand (i / 2) t := by
        conv_lhs => rw [hib]
        rw [show 2 * t = 2 * t + 0 by omega,
          jand_bit (i / 2) (i % 2) t 0 (by omega) (by omega)]
        omega
      have ho : jand i (2 * t + 1) = 2 * jand (i / 2) t + i % 2 := by
        conv_lhs => rw [hib]
        rw [jand_bit (i / 2) (i % 2) t 1 (by omega) (by omega)]
        omega
      have hle := jand_le_right (i / 2) t
      simp only [List.countP_cons, List.countP_nil, beq_iff_eq, he, ho]
      by_cases h : jand (i / 2) t = t
      · rw [h]
        rcases Nat.mod_two_eq_zero_or_one i with h2 | h2 <;> rw [h2] <;> simp
      · have h1 : ¬ (2 * jand (i / 2) t = 2 * t) := by omega
        have h2 : ¬ (2 * jand (i / 2) t + i % 2 = 2 * t + 1) := by omega
        simp [h, h1, h2]
    rw [sum_map_congr _ _ _ (fun t _ => hpt t), sum_map_ite_const _ _ (1 + i % 2),
      ih (i / 2) hq]
    conv_rhs => rw [hib]
    rcases Nat.mod_two_eq_zero_or_one i with h | h
    · rw [h]
      have : 2 * (i / 2) + 0 = 2 * (i / 2) := by omega
      rw [this, pc_two_mul]
      omega
    · rw [h, pc_two_mul_add_one]
      ring

/-! ## The ranked element model

A `PolytopeC` stores an element list: entry 0 is the vertex list (Points),
entry `k ≥ 1` the list of rank-`k` cells, each cell a list of indices into
the entry below.  The nullitope is `new PolytopeC([])` — an empty element
list — so the element list is embedded as an `Option`: `none` for the
empty list, `some (vertices, higherRankCells)` otherwise.

Modelled from the spec (the `PolytopeB`/`PolytopeC` class of
`polytopes/types` is not part of the sources at hand, only its callers):
the intrinsic rank (`dimensions`) of a polytope is the length of its
element list minus one, and `spaceDimensions` is the ambient coordinate
dimension of its vertices (−1 when it has none). -/

structure PolyC (V : Type) where
  elems : Option (List V × List (List (List Nat)))
deriving DecidableEq

def vertsOf {V : Type} (P : PolyC V) : List V :=
  match P.elems with
  | none => []
  | some (v, _) => v

def cellsOf {V : Type} (P : PolyC V) : List (List (List Nat)) :=
  match P.elems with
  | none => []
  | some (_, cs) => cs

/-- `P.elementList.length`. -/
def elLen {V : Type} (P : PolyC V) : Nat :=
  match P.elems with
  | none => 0
  | some (_, cs) => cs.length + 1

/-- Modelled from the spec: the intrinsic rank `P.dimensions` is the length
of the element list minus one (so the nullitope has rank −1). -/
def dims {V : Type} (P : PolyC V) : Int := (elLen P : Int) - 1

/-- The top rank as a natural number (`elementList.length - 1`). -/
def topRank {V : Type} (P : PolyC V) : Nat := elLen P - 1

/-- `P.elementList[k].length` (0 when rank `k` is absent). -/
def elSize {V : Type} (P : PolyC V) (k : Nat) : Nat :=
  if k = 0 then (vertsOf P).length else ((cellsOf P).getD (k - 1) []).length

/-- The rank-`k` cell list, `k ≥ 1`. -/
def rankCells {V : Type} (P : PolyC V) (k : Nat) : List (List Nat) :=
  (cellsOf P).getD (k - 1) []

/-- `P.elementList[k][i]` for `k ≥ 1`. -/
def cellAt {V : Type} (P : PolyC V) (k i : Nat) : List Nat :=
  (rankCells P k).getD i []

/-- Modelled from the spec: the ambient coordinate dimension of the
vertices (−1 when there are none). -/
def spaceDims (P : PolyC (List ℚ)) : Int :=
  match P.elems with
  | none => -1
  | some (v, _) =>
    match v.head? with
    | none => -1
    | some p => (p.length : Int)

/-- `PolytopeBuild.nullitope`: `new PolytopeC([])`. -/
def nullitope (V : Type) : PolyC V := ⟨none⟩

/-- `PolytopeBuild.point`: `new PolytopeC([[new Point([])]])`. -/
def point : PolyC (List ℚ) := ⟨some ([[]], [])⟩

/-- `PolytopeBuild.dyad`: two vertices at `±length/2` and one edge
(`length` defaults to 1). -/
def dyad (length : Option ℚ) : PolyC (List ℚ) :=
  let half : ℚ := match length with
    | none => 1 / 2
    | some l => l / 2
  ⟨some ([[-half], [half]], [[[0, 1]]])⟩

/-! ## Point operations

Modelled from the spec (the `Point` class is not among the sources at
hand): `product` concatenates two points' coordinates, `padLeft n` /
`padRight n` prepend / append `n` zero coordinates, `addCoordinate x`
appends one coordinate. -/

def padLeft (p : List ℚ) (n : Nat) : List ℚ := List.replicate n 0 ++ p

def padRight (p : List ℚ) (n : Nat) : List ℚ := p ++ List.replicate n 0

/-! ## The prism product (`Product.ts`, `_prism` / `getIndexOfPrismProduct`)

`countPrism P Q m n` is the value the source stores in `memoizer[m][n]`:
the number of product cells emitted into the combined-rank bucket before
the `(m, n)` block.  The source computes it with the same recursion,
memoized in a table shared across the calls of one product run. -/

def countPrism {V : Type} (P Q : PolyC V) : Nat → Nat → Nat
  | 0, _ => 0
  | m + 1, n =>
    if n = elLen Q - 1 then 0
    else countPrism P Q m (n + 1) + elSize P m * elSize Q (n + 1)

/-- `getIndexOfPrismProduct`: index of the product of the `i`-th rank-`m`
element of `P` and the `j`-th rank-`n` element of `Q` in the result. -/
def getIndexOfPrismProduct {V : Type} (P Q : PolyC V) (m i n j : Nat) : Nat :=
  countPrism P Q m n + (i * elSize Q n + j)

/-- The cell `_prism` builds for the pair `((m, i), (n, j))`: the prism
products of the facets of the first element with the second, and
vice versa. -/
def prismCell {V : Type} (P Q : PolyC V) (m i n j : Nat) : List Nat :=
  (if m ≠ 0 then
    (cellAt P m i).map (fun fi => getIndexOfPrismProduct P Q (m - 1) fi n j)
  else []) ++
  (if n ≠ 0 then
    (cellAt Q n j).map (fun fj => getIndexOfPrismProduct P Q m i (n - 1) fj)
  else [])

/-- The sequence of cell emissions of `_prism`'s main loop, in loop order
(`m` ascending, then `n` — starting from 1 when `m = 0` —, then `i`,
then `j`), each paired with the rank bucket `m + n` it is pushed into. -/
def prismEmits {V : Type} (P Q : PolyC V) : List (Nat × ((Nat × Nat) × (Nat × Nat))) :=
  (List.range (topRank P + 1)).flatMap (fun m =>
    (List.range' (if m = 0 then 1 else 0)
        (topRank Q + 1 - (if m = 0 then 1 else 0))).flatMap (fun n =>
      (List.range (elSize P m)).flatMap (fun i =>
        (List.range (elSize Q n)).map (fun j => (m + n, ((m, i), (n, j)))))))

/-- The rank-`r` cell list of the prism product: since the loop pushes each
cell onto `newElementList[m + n]` in sequence, bucket `r` holds exactly the
emissions tagged `r`, in emission order. -/
def prismRankCells {V : Type} (P Q : PolyC V) (r : Nat) : List (List Nat) :=
  ((prismEmits P Q).filter (fun e => e.1 == r)).map (fun e =>
    prismCell P Q e.2.1.1 e.2.1.2 e.2.2.1 e.2.2.2)

/-- The vertex list of the prism product: `Point.product` of each vertex of
`P` with each vertex of `Q`, `i` outer and `j` inner. -/
def prismVerts (pv qv : List (List ℚ)) : List (List ℚ) :=
  pv.flatMap (fun p => qv.map (fun q => p ++ q))

/-- `_prism`: the binary prism (Cartesian) product. -/
def prismFn (P Q : PolyC (List ℚ)) : PolyC (List ℚ) :=
  if dims P = 0 then Q
  else if dims Q = 0 then P
  else
    match P.elems, Q.elems with
    | some (pv, _), some (qv, _) =>
      ⟨some (prismVerts pv qv,
        (List.range' 1 (topRank P + topRank Q)).map (fun r => prismRankCells P Q r))⟩
    | _, _ => nullitope (List ℚ)

/-! ## The tegum and pyramid products
(`Product.ts`, `_tegum` / `_pyramid` / `getIndexOfTegumProduct`)

Both loops run the source ranks `m, n` from −1 (the nullitope); they are
embedded shifted by one (`M = m + 1`, `N = n + 1`), exactly as the source
itself shifts them (`m++; n++`) before touching the memo table. -/

def countTegum {V : Type} (P Q : PolyC V) (tm : Bool) : Nat → Nat → Nat
  | 0, _ => 0
  | M + 1, N =>
    if N = elLen Q - (if tm then 1 else 0) then 0
    else countTegum P Q tm M (N + 1) +
      (if M = 0 then 1 else elSize P (M - 1)) * elSize Q N

/-- `getIndexOfTegumProduct`, taking the shifted indices `M = m + 1`,
`N = n + 1` (the source computes `offset` before shifting, hence the
`N - 1` in the generic branch). -/
def getIndexOfTegumProduct {V : Type} (P Q : PolyC V) (tm : Bool) (M i N j : Nat) : Nat :=
  let offset := if M = 0 then j else if N = 0 then i else i * elSize Q (N - 1) + j
  countTegum P Q tm M N + offset

/-- `iElCount` of `_tegum`/`_pyramid`: the nullitope has no subelements, a
point has the single nullitope, other elements their facet lists. -/
def tegumElCount {V : Type} (P : PolyC V) (M i : Nat) : Nat :=
  if M = 0 then 0 else if M = 1 then 1 else (cellAt P (M - 1) i).length

/-- `elIndx` of `_tegum`/`_pyramid`: a vertex's unique subelement is "the
zeroth nullitope". -/
def tegumElIndx {V : Type} (P : PolyC V) (M i k : Nat) : Nat :=
  if M = 1 then 0 else (cellAt P (M - 1) i).getD k 0

/-- The cell `_tegum` (with `tm = true`) or `_pyramid` (`tm = false`)
builds for the shifted pair `((M, i), (N, j))`. -/
def tegumCell {V : Type} (P Q : PolyC V) (tm : Bool) (M i N j : Nat) : List Nat :=
  ((List.range (tegumElCount P M i)).map (fun k =>
    getIndexOfTegumProduct P Q tm (M - 1) (tegumElIndx P M i k) N j)) ++
  ((List.range (tegumElCount Q N j)).map (fun k =>
    getIndexOfTegumProduct P Q tm M i (N - 1) (tegumElIndx Q N j k)))

/-- The emissions of the main tegum loop (shifted ranks; `M + N < 2` is the
source's `m + n < 0` skip), tagged with their bucket `m + n + 1 = M + N − 1`. -/
def tegumEmits {V : Type} (P Q : PolyC V) : List (Nat × ((Nat × Nat) × (Nat × Nat))) :=
  (List.range (topRank P + 1)).flatMap (fun M =>
    (List.range (topRank Q + 1)).flatMap (fun N =>
      if M + N < 2 then []
      else
        (List.range (if M = 0 then 1 else elSize P (M - 1))).flatMap (fun i =>
          (List.range (if N = 0 then 1 else elSize Q (N - 1))).map (fun j =>
            (M + N - 1, ((M, i), (N, j)))))))

/-- The final component pass of `_tegum`: the top-rank cells, obtained by
multiplying the compounds of `P` with the compounds of `Q`.  The source
reads `Q_.elementList[n][j][k]` — index `k`, the loop variable of the
*outer* subelement loop — which is preserved here (out-of-range reads
default to 0). -/
def tegumSpecialCell {V : Type} (P Q : PolyC V) (i j : Nat) : List Nat :=
  let m := topRank P
  let n := topRank Q
  let iElCount := if m = 0 then 1 else (cellAt P m i).length
  let jElCount := if n = 0 then 1 else (cellAt Q n j).length
  (List.range iElCount).flatMap (fun k =>
    (List.range jElCount).map (fun _ =>
      getIndexOfTegumProduct P Q true m
        (if m = 0 then 0 else (cellAt P m i).getD k 0) n
        (if n = 0 then 0 else (cellAt Q n j).getD k 0)))

def tegumSpecial {V : Type} (P Q : PolyC V) : List (List Nat) :=
  (List.range (elSize P (topRank P))).flatMap (fun i =>
    (List.range (elSize Q (topRank Q))).map (fun j => tegumSpecialCell P Q i j))

/-- `_tegum`: the binary tegum product. -/
def tegumFn (P Q : PolyC (List ℚ)) : PolyC (List ℚ) :=
  if dims P ≤ 0 ∨ Q.elems = none then Q
  else if dims Q ≤ 0 ∨ P.elems = none then P
  else
    match P.elems, Q.elems with
    | some (pv, _), some (qv, _) =>
      ⟨some (qv.map (fun q => padLeft q (spaceDims P).toNat) ++
          pv.map (fun p => padRight p (spaceDims Q).toNat),
        (List.range' 1 (topRank P + topRank Q)).map (fun r =>
          (((tegumEmits P Q).filter (fun e => e.1 == r)).map (fun e =>
            tegumCell P Q true e.2.1.1 e.2.1.2 e.2.2.1 e.2.2.2)) ++
          (if r = topRank P + topRank Q then tegumSpecial P Q else [])))⟩
    | _, _ => P

/-- The emissions of `_pyramid`'s loop: like the tegum loop but with both
ranks running one step further (`m ≤ P.dimensions`, `n ≤ Q.dimensions`). -/
def pyramidEmits {V : Type} (P Q : PolyC V) : List (Nat × ((Nat × Nat) × (Nat × Nat))) :=
  (List.range (topRank P + 2)).flatMap (fun M =>
    (List.range (topRank Q + 2)).flatMap (fun N =>
      if M + N < 2 then []
      else
        (List.range (if M = 0 then 1 else elSize P (M - 1))).flatMap (fun i =>
          (List.range (if N = 0 then 1 else elSize Q (N - 1))).map (fun j =>
            (M + N - 1, ((M, i), (N, j)))))))

/-- `_pyramid`: the binary pyramid product (`height` is fixed at 1 in the
source; `Q`'s vertices get the `+height` apex coordinate, `P`'s `−height`). -/
def pyramidFn (P Q : PolyC (List ℚ)) : PolyC (List ℚ) :=
  if dims P = -1 ∨ P.elems = none then Q
  else if dims Q = -1 ∨ Q.elems = none then P
  else
    match P.elems, Q.elems with
    | some (pv, _), some (qv, _) =>
      ⟨some (qv.map (fun q => padLeft q (spaceDims P).toNat ++ [(1 : ℚ)]) ++
          pv.map (fun p => padRight p (spaceDims Q).toNat ++ [(-1 : ℚ)]),
        (List.range' 1 (topRank P + topRank Q + 1)).map (fun r =>
          ((pyramidEmits P Q).filter (fun e => e.1 == r)).map (fun e =>
            tegumCell P Q false e.2.1.1 e.2.1.2 e.2.2.1 e.2.2.2)))⟩
    | _, _ => P

/-! ## `PolytopeBuild.hypercube`

Pairs of disjoint bit masks `(i, j)` are scanned in lexicographic order;
`i = 0` produces the vertex with coordinates given by `j`'s bits, other
pairs produce the cell of rank `popcount i` whose facets are looked up in
the `locations` table (embedded as a function updated pointwise). -/

structure HCState where
  verts : List (List ℚ)
  buckets : List (List (List Nat))
  locs : Nat → Nat → Nat

def hypercubeStep (d : Nat) (st : HCState) (p : Nat × Nat) : HCState :=
  let i := p.1
  let j := p.2
  if i = 0 then
    let coordinates : List ℚ :=
      (List.range' 1 d).map (fun k =>
        if j % 2 ^ k < 2 ^ (k - 1) then (1 : ℚ) / 2 else -(1 / 2))
    { verts := st.verts ++ [coordinates]
      buckets := st.buckets
      locs := fun j' i' => if j' = j ∧ i' = 0 then st.verts.length else st.locs j' i' }
  else if jand j i ≠ 0 then st
  else
    let differences := bitList i
    let elementDimension := differences.length
    let facets :=
      differences.map (fun b => st.locs j (jxor i b)) ++
      differences.map (fun b => st.locs (jxor j b) (jxor i b))
    { verts := st.verts
      buckets := st.buckets.set (elementDimension - 1)
        ((st.buckets.getD (elementDimension - 1) []) ++ [facets])
      locs := fun j' i' =>
        if j' = j ∧ i' = i then (st.buckets.getD (elementDimension - 1) []).length
        else st.locs j' i' }

def hypercube (d : Nat) : PolyC (List ℚ) :=
  let pairs := (List.range (2 ^ d)).flatMap (fun i =>
    (List.range (2 ^ d)).map (fun j => (i, j)))
  let st := pairs.foldl (hypercubeStep d) ⟨[], List.replicate d [], fun _ _ => 0⟩
  ⟨some (st.verts, st.buckets)⟩

/-! ## `PolytopeBuild.simplex`

Subelements are indexed by the masks `1 ≤ i < 2^(d+1)` over the `d + 1`
vertices; single-bit masks are the vertices themselves (pre-seeded into
`locations`), a mask with `c ≥ 2` set bits yields the rank-`(c − 1)` cell
whose facets are the masks with one bit cleared.  The vertex coordinates
(memoized square roots in the source) are abstracted into `mkV`. -/

structure SXState where
  buckets : List (List (List Nat))
  locs : Nat → Nat

def simplexStep (st : SXState) (i : Nat) : SXState :=
  if dropLow i = 0 then st
  else
    let elemVertices := bitList i
    let elementDimension := elemVertices.length - 1
    let facets := elemVertices.map (fun b => st.locs (jxor i b))
    { buckets := st.buckets.set (elementDimension - 1)
        ((st.buckets.getD (elementDimension - 1) []) ++ [facets])
      locs := fun x =>
        if x = i then (st.buckets.getD (elementDimension - 1) []).length
        else st.locs x }

def simplexInitLocs (d : Nat) : Nat → Nat :=
  (List.range (d + 1)).foldl (fun f i => fun x => if x = 2 ^ i then i else f x)
    (fun _ => 0)

def simplexFold (d : Nat) : SXState :=
  (List.range' 1 (2 ^ (d + 1) - 1)).foldl simplexStep
    ⟨List.replicate d [], simplexInitLocs d⟩

def simplex {V : Type} (mkV : Nat → V) (d : Nat) : PolyC V :=
  ⟨some ((List.range (d + 1)).map mkV, (simplexFold d).buckets)⟩

/-! ## `PolytopeBuild.cross`

Pairs `(i, j)` with `i` the set of nonzero axes and `j ⊆ i` the set of
negative axes; single-bit `i` gives two opposite vertices, larger masks the
cells; the single top-rank cell collects all rank-`(d−1)` facet indices.
The vertex coordinates (`±1/√2`) are abstracted into `mkV`.  For `d = 0`
the source reads `els[-1].length`, which throws a `TypeError`; this is
embedded as `none`. -/

structure CRState (V : Type) where
  verts : List V
  buckets : List (List (List Nat))
  locs : Nat → Nat → Nat

def crossStep {V : Type} (mkV : Nat → Nat → V) (st : CRState V) (p : Nat × Nat) :
    CRState V :=
  let i := p.1
  let j := p.2
  if jand i j ≠ j then st
  else if dropLow i = 0 then
    { verts := st.verts ++ [mkV i j]
      buckets := st.buckets
      locs := fun i' j' => if i' = i ∧ j' = j then st.verts.length else st.locs i' j' }
  else
    let elemVertices := bitList i
    let elementDimension := elemVertices.length - 1
    let facets := elemVertices.map (fun b => st.locs (jxor i b) (jdiff j b))
    { verts := st.verts
      buckets := st.buckets.set (elementDimension - 1)
        ((st.buckets.getD (elementDimension - 1) []) ++ [facets])
      locs := fun i' j' =>
        if i' = i ∧ j' = j then (st.buckets.getD (elementDimension - 1) []).length
        else st.locs i' j' }

def crossPairs (d : Nat) : List (Nat × Nat) :=
  (List.range' 1 (2 ^ d - 1)).flatMap (fun i =>
    (List.range (2 ^ d)).map (fun j => (i, j)))

def crossFold {V : Type} (mkV : Nat → Nat → V) (d : Nat) : CRState V :=
  (crossPairs d).foldl (crossStep mkV) ⟨[], List.replicate d [], fun _ _ => 0⟩

def cross {V : Type} (mkV : Nat → Nat → V) (d : Nat) : Option (PolyC V) :=
  let st := crossFold mkV d
  if d = 0 then none
  else
    let topFacetCount :=
      if d = 1 then st.verts.length else (st.buckets.getD (d - 2) []).length
    some ⟨some (st.verts, st.buckets.set (d - 1) [List.range topFacetCount])⟩

/-! ## `PolytopeBuild.regularPolygon`

`n` vertices on a circle (abstracted into `vtx`); `gcd n d` components of
`n / gcd n d` edges each, walked with the running pair `(x, y)` and the
running edge counter.  The `s` (edge length) parameter only scales the
coordinates. -/

structure RPInner where
  x : Nat
  y : Nat
  counter : Nat
  edges : List (List Nat)
  comp : List Nat

def rpEdgeStep (n d : Nat) (st : RPInner) : Nat → RPInner := fun _ =>
  let y' := st.y + d
  { x := st.y
    y := if n ≤ y' then y' - n else y'
    counter := st.counter + 1
    edges := st.edges ++ [[st.x, st.y]]
    comp := st.comp ++ [st.counter] }

structure RPOuter where
  x : Nat
  y : Nat
  counter : Nat
  edges : List (List Nat)
  comps : List (List Nat)

def rpCompStep (n d n_gcd : Nat) (st : RPOuter) : Nat → RPOuter := fun _ =>
  let inner := (List.range n_gcd).foldl (rpEdgeStep n d)
    ⟨st.x, st.y, st.counter, st.edges, []⟩
  { x := inner.x + 1
    y := inner.y + 1
    counter := inner.counter
    edges := inner.edges
    comps := st.comps ++ [inner.comp] }

def regularPolygon {V : Type} (vtx : Nat → V) (n d : Nat) : PolyC V :=
  let g := Nat.gcd n d
  let n_gcd := n / g
  let st := (List.range g).foldl (rpCompStep n d n_gcd) ⟨0, d, 0, [], []⟩
  ⟨some ((List.range n).map vtx, [st.edges, st.comps])⟩

/-! ## `FileOperations.checkCommonElements`

The presence map `vals` is a JS object keyed by array entries; an
out-of-range read (`a[0]` on an empty array, `b[b.length - 1]` on an empty
array) yields the key `undefined`, embedded as `none`.  The first loop
seeds `vals[a[0]]` and walks `a[1..]`, returning `true` on a hit; the
second walks `b[0 .. b.length − 2]` the same way and the final answer
probes `b[b.length − 1]`. -/

def fillLoop (vals : Option Nat → Bool) : List Nat → Option (Option Nat → Bool)
  | [] => some vals
  | x :: xs =>
    if vals (some x) then none
    else fillLoop (fun k => k == some x || vals k) xs

def checkCommonElements (a b : List Nat) : Bool :=
  let vals1 : Option Nat → Bool := fun k => k == a.get? 0
  match fillLoop vals1 (a.drop 1) with
  | none => true
  | some vals2 =>
    match fillLoop vals2 (b.take (b.length - 1)) with
    | none => true
    | some vals3 => vals3 (b.get? (b.length - 1))

/-! ## Component extraction of the OFF reader

The reader builds one graph node per facet, connects nodes `i < j` iff
`checkCommonElements(facets[i], facets[j])`, and collects the connected
components.  Modelled from the spec (the `GraphNode` class is not among
the sources at hand): components are extracted by traversal from each
unvisited node, visiting each node exactly once; each component is
returned as the set of nodes reachable from its first-seen node. -/

def facetsConnected (facets : List (List Nat)) (u v : Nat) : Bool :=
  u ≠ v && checkCommonElements (facets.getD (min u v) []) (facets.getD (max u v) [])

def reachStep (facets : List (List Nat)) (cur : List Nat) : List Nat :=
  (List.range facets.length).filter (fun v =>
    cur.contains v || cur.any (fun u => facetsConnected facets u v))

def reachable (facets : List (List Nat)) (i : Nat) : List Nat :=
  (reachStep facets)^[facets.length] [i]

def components (facets : List (List Nat)) : List (List Nat) :=
  ((List.range facets.length).foldl (fun acc i =>
    if acc.2.contains i then acc
    else (acc.1 ++ [reachable facets i], acc.2 ++ reachable facets i))
    ([], [])).1

/-! ## `saveAsOFF` (`src/ts/files/OFF.ts`), with `options.comments` off

The output is the list of strings pushed onto `data`, or the thrown error.
`faceToVertices` (a method of the polytope class, not among the sources at
hand) and the rendering of a coordinate into a string are taken as
parameters `ftv` and `numStr`; neither affects which branch is taken. -/

/-- JS `coordinates[idx]` with a possibly negative index. -/
def coordAt (v : List ℚ) (idx : Int) : Option ℚ :=
  if idx < 0 then none else v.get? idx.toNat

def offVertexTokens (P : PolyC (List ℚ)) (numStr : ℚ → String) : List String :=
  if P.elems = none then []
  else
    (vertsOf P).flatMap (fun v =>
      ((List.range (dims P - 1).toNat).flatMap (fun jj =>
        match coordAt v jj with
        | none => ["0 "]
        | some c => [numStr c, " "])) ++
      (match coordAt v (dims P - 1) with
      | none => ["0\n"]
      | some c => [numStr c, "\n"]))

def offFaceTokens (P : PolyC (List ℚ)) (ftv : Nat → List Nat) : List String :=
  if elLen P < 3 then []
  else
    (List.range (elSize P 2)).flatMap (fun i =>
      [Nat.repr (cellAt P 2 i).length] ++
      ((List.range (cellAt P 2 i).length).flatMap (fun jj =>
        [" ", Nat.repr ((ftv i).getD jj 0)])) ++
      ["\n"])

def offHigherTokens (P : PolyC (List ℚ)) : List String :=
  (List.range' 3 ((dims P).toNat - 3)).flatMap (fun dd =>
    (rankCells P dd).flatMap (fun cell =>
      [Nat.repr cell.length] ++ cell.flatMap (fun idx => [" ", Nat.repr idx]) ++ ["\n"]))

def offHeaderTokens (P : PolyC (List ℚ)) : List String :=
  let counts := fun k => Nat.repr (elSize P k)
  if dims P = -1 then ["-1OFF"]
  else if dims P = 0 then ["0OFF"]
  else if dims P = 1 then ["1OFF\n", counts 0, "\n"]
  else if dims P = 2 then ["2OFF\n", counts 0, " ", counts 2, "\n"]
  else if dims P = 3 then ["OFF\n", counts 0, " ", counts 2, " ", counts 1, "\n"]
  else
    [(dims P).repr, "OFF\n", counts 0, " ", counts 2, " ", counts 1, " "] ++
    ((List.range' 3 ((dims P).toNat - 1 - 3)).flatMap (fun i => [counts i, " "])) ++
    [counts ((dims P).toNat - 1), "\n"]

def saveAsOFF (P : PolyC (List ℚ)) (ftv : Nat → List Nat) (numStr : ℚ → String) :
    Except String (List String) :=
  if spaceDims P > dims P then
    .error
      "The OFF format does not support polytopes in spaces with more dimensions than themselves."
  else
    .ok (offHeaderTokens P ++ offVertexTokens P numStr ++ offFaceTokens P ftv ++
      offHigherTokens P)

/-! ## Combinatorial equivalence up to relabeling

`combEquivWith A B σs` checks that the rank-`k` permutation `σs[k]` carries
`A`'s elements onto `B`'s: counts agree at every rank, each `σs[k]` is a
permutation of the rank's indices, and the facet multiset of cell `i`,
relabeled through `σs[k−1]`, equals the facet multiset of `B`'s cell
`σs[k][i]`. -/

def isPermList (σ : List Nat) (n : Nat) : Bool :=
  σ.length == n && (List.range n).all (fun v => σ.contains v)

def bagEq (a b : List Nat) : Bool :=
  a.length == b.length && a.all (fun x => a.count x == b.count x) &&
    b.all (fun x => a.count x == b.count x)

def combEquivWith {V W : Type} (A : PolyC V) (B : PolyC W) (σs : List (List Nat)) :
    Bool :=
  elLen A == elLen B && σs.length == elLen A &&
  (List.range (elLen A)).all (fun k =>
    elSize A k == elSize B k &&
    isPermList (σs.getD k []) (elSize A k) &&
    (k == 0 ||
      (List.range (elSize A k)).all (fun i =>
        bagEq ((cellAt A k i).map (fun f => (σs.getD (k - 1) []).getD f 0))
          (cellAt B k ((σs.getD k []).getD i 0)))))

/-- Does some cell of `P` reference an index out of range of the rank
below? -/
def hasDangling {V : Type} (P : PolyC V) : Bool :=
  (List.range' 1 (topRank P)).any (fun k =>
    (rankCells P k).any (fun c => c.any (fun idx => elSize P (k - 1) ≤ idx)))

/-- A dyad-like polytope whose single edge references the out-of-range
vertex index 5: a malformed ranked element model. -/
def badDyad : PolyC (List ℚ) := ⟨some ([[0], [1]], [[[0, 5]]])⟩

/-- A well-formed dyad-like partner operand (vertices at 2 and 3). -/
def partnerDyad : PolyC (List ℚ) := ⟨some ([[2], [3]], [[[0, 1]]])⟩

/-- C1 (counterexample).  The prism product does not reject the malformed
operand `badDyad` (vertex index 5 out of range in its edge): the product
computation runs to completion and returns a fully built polytope — whose
own edge list contains the out-of-range indices 10 and 11 produced from
the dangling reference. -/
theorem prism_accepts_malformed_operand :
    prismFn badDyad partnerDyad =
      ⟨some ([[0, 2], [0, 3], [1, 2], [1, 3]],
        [[[0, 1], [2, 3], [0, 10], [1, 11]], [[0, 5, 2, 3]]])⟩ ∧
    (vertsOf (prismFn badDyad partnerDyad)).length = 4 := by
  constructor
  · decide
  · decide

/-- C1 (amended).  None of the three products validates its operands: on
the malformed `badDyad` each of the prism, tegum and pyramid products
returns a computed polytope rather than an error, and each result itself
contains a dangling (out-of-range, neither truncated nor wrapped) facet
reference. -/
theorem products_perform_no_validation :
    (prismFn badDyad partnerDyad).elems ≠ none ∧
    hasDangling (prismFn badDyad partnerDyad) = true ∧
    (tegumFn badDyad partnerDyad).elems ≠ none ∧
    hasDangling (tegumFn badDyad partnerDyad) = true ∧
    (pyramidFn badDyad partnerDyad).elems ≠ none ∧
    hasDangling (pyramidFn badDyad partnerDyad) = true := by
  refine ⟨by decide, by decide, by decide, by decide, by decide, by decide⟩

/-- C3.  The identity laws of the products, exactly as the source's early
returns implement them: the prism product with the point returns the other
operand, and the tegum and pyramid products with the nullitope return the
other operand. -/
theorem product_identity_laws (P : PolyC (List ℚ)) :
    prismFn point P = P ∧
    tegumFn (nullitope (List ℚ)) P = P ∧
    pyramidFn (nullitope (List ℚ)) P = P := by
  refine ⟨rfl, rfl, rfl⟩

/-- C6.  The prism product of two dyads is combinatorially equal to the
2-dimensional hypercube: 4 vertices, 4 edges, 1 face, and the identity
relabeling carries the one onto the other (cell facet multisets match). -/
theorem prism_dyad_dyad_equiv_hypercube_two :
    elSize (prismFn (dyad none) (dyad none)) 0 = 4 ∧
    elSize (prismFn (dyad none) (dyad none)) 1 = 4 ∧
    elSize (prismFn (dyad none) (dyad none)) 2 = 1 ∧
    elSize (hypercube 2) 0 = 4 ∧
    elSize (hypercube 2) 1 = 4 ∧
    elSize (hypercube 2) 2 = 1 ∧
    combEquivWith (prismFn (dyad none) (dyad none)) (hypercube 2)
      [[0, 1, 2, 3], [0, 1, 2, 3], [0]] = true := by
  refine ⟨by decide, by decide, by decide, by decide, by decide, by decide, by decide⟩

/-- The error message thrown by `saveAsOFF` on a polytope living in a
space of higher dimension than its own rank. -/
def offDimErrorMsg : String :=
  "The OFF format does not support polytopes in spaces with more dimensions than themselves."

/-- C10.  `saveAsOFF` throws exactly when the ambient dimension exceeds
the intrinsic rank, before producing any output tokens; otherwise the
export proceeds and produces the token list.  (The embedding is pure, so
the operand is never modified.) -/
theorem saveAsOFF_guard (P : PolyC (List ℚ)) (ftv : Nat → List Nat)
    (numStr : ℚ → String) :
    (spaceDims P > dims P →
      saveAsOFF P ftv numStr = Except.error offDimErrorMsg) ∧
    (spaceDims P ≤ dims P → ∃ data, saveAsOFF P ftv numStr = Except.ok data) := by
  constructor
  · intro h
    unfold saveAsOFF
    rw [if_pos h]
    rfl
  · intro h
    unfold saveAsOFF
    rw [if_neg (by omega)]
    exact ⟨_, rfl⟩

/-- Witness for `saveAsOFF_guard`: a rank-0 polytope with a 3-coordinate
vertex is rejected with the error message; the point is exported. -/
theorem saveAsOFF_guard_witness :
    saveAsOFF ⟨some ([[1, 2, 3]], [])⟩ (fun _ => []) (fun _ => "") =
      Except.error offDimErrorMsg ∧
    ∃ data, saveAsOFF point (fun _ => []) (fun _ => "") = Except.ok data :=
  ⟨(saveAsOFF_guard ⟨some ([[1, 2, 3]], [])⟩ (fun _ => []) (fun _ => "")).1 (by decide),
    (saveAsOFF_guard point (fun _ => []) (fun _ => "")).2 (by decide)⟩

/-! ## Correctness of `checkCommonElements` -/

theorem fillLoop_no_hit (l : List Nat) (vals : Option Nat → Bool)
    (h : ∀ x ∈ l, vals (some x) = false) (hnd : l.Nodup) :
    ∃ vals', fillLoop vals l = some vals' ∧
      ∀ k, vals' k = (decide (k ∈ l.map some) || vals k) := by
  induction l generalizing vals with
  | nil => exact ⟨vals, rfl, by simp⟩
  | cons x xs ih =>
    have hx : vals (some x) = false := h x (by simp)
    obtain ⟨v', hfl, hch⟩ := ih (fun k => k == some x || vals k)
      (by
        intro y hy
        have hyx : y ≠ x := by
          intro hyx
          subst hyx
          exact (List.nodup_cons.mp hnd).1 hy
        simp [hyx, h y (by simp [hy])])
      (List.nodup_cons.mp hnd).2
    refine ⟨v', ?_, ?_⟩
    · simpa [fillLoop, hx] using hfl
    · intro k
      rw [hch k]
      by_cases hk : k = some x
      · simp [hk]
      · have hbe : (k == some x) = false := beq_eq_false_iff_ne.mpr hk
        rw [hbe, Bool.false_or, List.map_cons,
          show (decide (k ∈ some x :: List.map some xs)) = decide (k ∈ List.map some xs)
            from decide_eq_decide.mpr (by simp [hk])]

theorem fillLoop_hit_iff (l : List Nat) (vals : Option Nat → Bool)
    (hnd : l.Nodup) :
    fillLoop vals l = none ↔ ∃ x ∈ l, vals (some x) = true := by
  induction l generalizing vals with
  | nil => simp [fillLoop]
  | cons x xs ih =>
    by_cases hx : vals (some x) = true
    · simp [fillLoop, hx]
    · have hx' : vals (some x) = false := by
        cases h : vals (some x)
        · rfl
        · exact absurd h hx
      rw [show fillLoop vals (x :: xs) = fillLoop (fun k => k == some x || vals k) xs by
        simp [fillLoop, hx']]
      rw [ih _ (List.nodup_cons.mp hnd).2]
      constructor
      · rintro ⟨y, hy, hvy⟩
        have hyx : y ≠ x := by
          intro hyx
          subst hyx
          exact (List.nodup_cons.mp hnd).1 hy
        refine ⟨y, by simp [hy], ?_⟩
        simpa [hyx] using hvy
      · rintro ⟨y, hy, hvy⟩
        rcases List.mem_cons.mp hy with hyx | hyxs
        · subst hyx
          exact absurd hvy hx
        · exact ⟨y, hyxs, by simp [hvy]⟩

theorem getLast_not_mem_take (l : List Nat) (hnd : l.Nodup) (hne : l ≠ []) :
    l.getLast hne ∉ l.take (l.length - 1) := by
  rw [← List.dropLast_eq_take]
  intro hmem
  have hsplit : l.dropLast ++ [l.getLast hne] = l := List.dropLast_append_getLast hne
  have hnd2 : (l.dropLast ++ [l.getLast hne]).Nodup := by
    rw [hsplit]
    exact hnd
  exact (List.disjoint_of_nodup_append hnd2) hmem (by simp)

/-- The common-element test decides set intersection, for facet lists
without internal duplicates, as long as at least one list is nonempty. -/
theorem checkCommonElements_iff (a b : List Nat) (ha : a.Nodup) (hb : b.Nodup)
    (hne : a ≠ [] ∨ b ≠ []) :
    (checkCommonElements a b = true ↔ ∃ x, x ∈ a ∧ x ∈ b) := by
  unfold checkCommonElements
  have hbt : (b.take (b.length - 1)).Nodup := (List.take_sublist _ _).nodup hb
  cases a with
  | nil =>
    have hbne : b ≠ [] := by
      rcases hne with h | h
      · exact absurd rfl h
      · exact h
    simp only [List.drop_nil, List.get?_eq_getElem?]
    obtain ⟨v', hfl, hch⟩ := fillLoop_no_hit (b.take (b.length - 1))
      (fun k => k == (([] : List Nat))[0]?) (by intro x hx; simp) hbt
    simp only [fillLoop]
    rw [hfl]
    dsimp only
    have hlast : b[b.length - 1]? = some (b.getLast hbne) := by
      rw [← List.getLast?_eq_getElem?, List.getLast?_eq_getLast b hbne]
    rw [hlast, hch]
    constructor
    · intro h
      simp only [beq_iff_eq, Bool.or_eq_true, decide_eq_true_eq] at h
      rcases h with h | h
      · exfalso
        obtain ⟨a1, hal, hae⟩ := List.mem_map.mp h
        have ha2 : a1 = b.getLast hbne := by simpa using hae
        subst ha2
        exact getLast_not_mem_take b hb hbne hal
      · exact absurd h (by simp)
    · rintro ⟨x, hx, _⟩
      exact absurd hx (by simp)
  | cons a0 ta =>
    simp only [List.drop_succ_cons, List.drop_zero, List.get?_eq_getElem?]
    obtain ⟨v2, hfl2, hch2⟩ := fillLoop_no_hit ta (fun k => k == (a0 :: ta)[0]?)
      (by
        intro x hx
        have hxa : x ≠ a0 := by
          intro hxa
          subst hxa
          exact (List.nodup_cons.mp ha).1 hx
        simp [hxa])
      (List.nodup_cons.mp ha).2
    have hv2 : ∀ x : Nat, v2 (some x) = decide (x ∈ a0 :: ta) := by
      intro x
      rw [hch2]
      by_cases hx : x = a0
      · simp [hx]
      · simp [hx]
    rw [hfl2]
    dsimp only
    by_cases hhit : ∃ x ∈ b.take (b.length - 1), v2 (some x) = true
    · rw [(fillLoop_hit_iff _ _ hbt).mpr hhit]
      obtain ⟨x, hxb, hxv⟩ := hhit
      rw [hv2 x] at hxv
      refine ⟨fun _ => ⟨x, by simpa using hxv, List.mem_of_mem_take hxb⟩, fun _ => rfl⟩
    · obtain ⟨v3, hfl3, hch3⟩ := fillLoop_no_hit (b.take (b.length - 1)) v2
        (by
          intro x hx
          cases h : v2 (some x)
          · rfl
          · exact absurd ⟨x, hx, h⟩ hhit)
        hbt
      rw [hfl3]
      dsimp only
      cases b with
      | nil =>
        simp only [List.length_nil, List.take_nil] at hch3 ⊢
        rw [show (([] : List Nat))[(0 : Nat) - 1]? = none by simp, hch3, hch2]
        constructor
        · intro h
          exfalso
          revert h
          simp
        · rintro ⟨x, _, hx⟩
          exact absurd hx (by simp)
      | cons b0 tb =>
        have hbne : b0 :: tb ≠ [] := by simp
        have hlast : (b0 :: tb)[(b0 :: tb).length - 1]? =
            some ((b0 :: tb).getLast hbne) := by
          rw [← List.getLast?_eq_getElem?, List.getLast?_eq_getLast _ hbne]
        rw [hlast, hch3, hv2]
        constructor
        · intro h
          refine ⟨(b0 :: tb).getLast hbne, ?_, List.getLast_mem hbne⟩
          simp only [Bool.or_eq_true, decide_eq_true_eq] at h
          rcases h with h | h
          · exfalso
            obtain ⟨a1, hal, hae⟩ := List.mem_map.mp h
            have ha2 : a1 = (b0 :: tb).getLast hbne := by simpa using hae
            subst ha2
            exact getLast_not_mem_take _ hb hbne hal
          · exact h
        · rintro ⟨x, hxa, hxb⟩
          have hsplit : (b0 :: tb).dropLast ++ [(b0 :: tb).getLast hbne] = b0 :: tb :=
            List.dropLast_append_getLast hbne
          have hxb2 : x ∈ (b0 :: tb).dropLast ∨ x = (b0 :: tb).getLast hbne := by
            rcases List.mem_append.mp (hsplit ▸ hxb) with h | h
            · exact Or.inl h
            · exact Or.inr (by simpa using h)
          rcases hxb2 with h | h
          · exfalso
            apply hhit
            refine ⟨x, ?_, ?_⟩
            · rw [← List.dropLast_eq_take] at *
              exact h
            · rw [hv2 x]
              simpa using hxa
          · subst h
            simp [hxa]

/-- How many subelements two facet lists share. -/
def sharedCount (facets : List (List Nat)) (i j : Nat) : Nat :=
  (facets.getD i []).countP (fun e => (facets.getD j []).contains e)

/-- C9 (counterexample).  On two empty facet lists the common-element test
returns `true` although the index sets do not intersect: the seeding read
`a[0]` and the final probe `b[b.length - 1]` are both the JS `undefined`
key. -/
theorem checkCommonElements_empty_empty :
    checkCommonElements [] [] = true ∧
    ¬∃ x : Nat, x ∈ ([] : List Nat) ∧ x ∈ ([] : List Nat) := by
  constructor
  · decide
  · rintro ⟨x, hx, _⟩
    exact absurd hx (by simp)

/-- C9 (amended).  For duplicate-free facet lists, at least one of them
nonempty, the common-element test returns `true` iff the index sets
intersect; and on the cube's 6 quadrilateral faces (rank-2 cells of
`hypercube 3`, each pair sharing at most one edge) the component
extraction yields exactly one component covering all 6 faces. -/
theorem checkCommonElements_decides_intersection :
    (∀ a b : List Nat, a.Nodup → b.Nodup → (a ≠ [] ∨ b ≠ []) →
      (checkCommonElements a b = true ↔ ∃ x, x ∈ a ∧ x ∈ b)) ∧
    components (rankCells (hypercube 3) 2) = [[0, 1, 2, 3, 4, 5]] ∧
    ((List.range 6).all (fun i => (List.range 6).all (fun j =>
      i == j || sharedCount (rankCells (hypercube 3) 2) i j ≤ 1))) = true := by
  refine ⟨checkCommonElements_iff, by decide, by decide⟩

/-- Witness for `checkCommonElements_decides_intersection` at the concrete
lists `[1, 2]` and `[2, 3]`. -/
theorem checkCommonElements_decides_intersection_witness :
    (checkCommonElements [1, 2] [2, 3] = true ↔
      ∃ x, x ∈ [1, 2] ∧ x ∈ [2, 3]) ∧
    components (rankCells (hypercube 3) 2) = [[0, 1, 2, 3, 4, 5]] :=
  ⟨checkCommonElements_decides_intersection.1 [1, 2] [2, 3] (by decide) (by decide)
      (Or.inl (by decide)),
    checkCommonElements_decides_intersection.2.1⟩

/-! ## Counting the simplex builder's cells (C4) -/

theorem getD_set_self {α : Type} (l : List α) (k : Nat) (a d : α)
    (h : k < l.length) : (l.set k a).getD k d = a := by
  unfold List.getD
  rw [List.get?_eq_getElem?, List.getElem?_set_self h]
  rfl

theorem getD_set_ne {α : Type} (l : List α) (k m : Nat) (a d : α)
    (h : k ≠ m) : (l.set k a).getD m d = l.getD m d := by
  unfold List.getD
  rw [List.get?_eq_getElem?, List.getElem?_set_ne h, ← List.get?_eq_getElem?]

theorem getD_replicate {α : Type} (n k : Nat) (a : α) :
    (List.replicate n a).getD k a = a := by
  unfold List.getD
  by_cases h : k < n
  · rw [List.get?_eq_getElem?, List.getElem?_replicate, if_pos h]
    rfl
  · have hlen : (List.replicate n a).length ≤ k := by
      rw [List.length_replicate]
      omega
    rw [List.get?_eq_getElem?, List.getElem?_eq_none hlen]
    rfl

theorem two_le_pc_iff (i : Nat) : 2 ≤ pc i ↔ dropLow i ≠ 0 := by
  rcases Nat.eq_zero_or_pos i with hi | hi
  · subst hi
    simp [pc_zero, dropLow, jand_zero_zero]
  · rw [pc_succ_drop i (by omega)]
    have := pc_eq_zero_iff (dropLow i)
    omega

theorem simplexStep_buckets_len (st : SXState) (i : Nat) :
    ((simplexStep st i).buckets).length = st.buckets.length := by
  unfold simplexStep
  by_cases h : dropLow i = 0
  · rw [if_pos h]
  · rw [if_neg h]
    exact List.length_set ..

theorem simplexStep_bucket_getD (st : SXState) (i k : Nat)
    (hk : k < st.buckets.length) :
    (((simplexStep st i).buckets).getD k []).length =
    ((st.buckets.getD k []).length) +
      (if dropLow i ≠ 0 ∧ pc i - 2 = k then 1 else 0) := by
  unfold simplexStep
  by_cases h : dropLow i = 0
  · rw [if_pos h, if_neg (by tauto)]
    omega
  · rw [if_neg h]
    show ((st.buckets.set ((bitList i).length - 1 - 1) _).getD k []).length = _
    by_cases hik : pc i - 2 = k
    · have hidx : (bitList i).length - 1 - 1 = k := by
        unfold pc at hik
        omega
      rw [hidx, getD_set_self _ _ _ _ hk, if_pos ⟨h, hik⟩]
      simp
    · have hidx : (bitList i).length - 1 - 1 ≠ k := by
        unfold pc at hik
        omega
      rw [getD_set_ne _ _ _ _ _ hidx, if_neg (by tauto)]
      omega

theorem simplex_fold_buckets_len (l : List Nat) (st : SXState) :
    ((l.foldl simplexStep st).buckets).length = st.buckets.length := by
  induction l generalizing st with
  | nil => rfl
  | cons x xs ih => rw [List.foldl_cons, ih, simplexStep_buckets_len]

theorem simplex_fold_bucket (l : List Nat) (st : SXState) (k : Nat)
    (hk : k < st.buckets.length) :
    (((l.foldl simplexStep st).buckets).getD k []).length =
    (st.buckets.getD k []).length +
      l.countP (fun i => decide (dropLow i ≠ 0 ∧ pc i - 2 = k)) := by
  induction l generalizing st with
  | nil => simp
  | cons x xs ih =>
    rw [List.foldl_cons, ih _ (by rw [simplexStep_buckets_len]; exact hk),
      simplexStep_bucket_getD st x k hk, List.countP_cons]
    by_cases hx : dropLow x ≠ 0 ∧ pc x - 2 = k
    · rw [if_pos hx, if_pos (by simpa using hx)]
      omega
    · rw [if_neg hx, if_neg (by simpa using hx)]
      omega

/-- C4.  The simplex builder in dimension `d` produces `d + 1` vertices and
exactly `C(d+1, k+1)` cells of rank `k`, for every `0 ≤ k ≤ d`. -/
theorem simplex_element_counts {V : Type} (mkV : Nat → V) (d k : Nat) (hk : k ≤ d) :
    (vertsOf (simplex mkV d)).length = d + 1 ∧
    elSize (simplex mkV d) k = Nat.choose (d + 1) (k + 1) := by
  have hverts : (vertsOf (simplex mkV d)).length = d + 1 := by
    show ((List.range (d + 1)).map mkV).length = d + 1
    simp
  refine ⟨hverts, ?_⟩
  cases k with
  | zero =>
    show (vertsOf (simplex mkV d)).length = Nat.choose (d + 1) 1
    rw [hverts, Nat.choose_one_right]
  | succ k' =>
    show (((simplexFold d).buckets).getD k' []).length = _
    unfold simplexFold
    rw [simplex_fold_bucket _ _ k' (by simpa using by omega : k' < (List.replicate d ([] : List (List Nat))).length)]
    show (((List.replicate d ([] : List (List Nat))).getD k' []).length) + _ = _
    rw [getD_replicate]
    have hcong : (List.range' 1 (2 ^ (d + 1) - 1)).countP
        (fun i => decide (dropLow i ≠ 0 ∧ pc i - 2 = k')) =
        (List.range' 1 (2 ^ (d + 1) - 1)).countP (fun i => pc i == k' + 2) := by
      apply List.countP_congr
      intro i _
      have h2 := two_le_pc_iff i
      constructor
      · intro h
        have h' := of_decide_eq_true h
        simp only [beq_iff_eq]
        omega
      · intro h
        have h' : pc i = k' + 2 := by simpa using h
        apply decide_eq_true
        omega
    rw [hcong]
    have hrange : List.range (2 ^ (d + 1)) = 0 :: List.range' 1 (2 ^ (d + 1) - 1) := by
      rw [List.range_eq_range',
        show 2 ^ (d + 1) = (2 ^ (d + 1) - 1) + 1 by
          have := Nat.pos_pow_of_pos (d + 1) (show 0 < 2 by omega)
          omega]
      rw [List.range'_succ]
      simp
    have hpcr := countP_pc_range (d + 1) (k' + 2)
    rw [hrange, List.countP_cons] at hpcr
    have hz : (pc 0 == k' + 2) = false := by
      rw [pc_zero]
      simp
    rw [hz] at hpcr
    simp only [Bool.false_eq_true, if_false, Nat.add_zero] at hpcr
    rw [show k' + 1 + 1 = k' + 2 by omega]
    simpa using hpcr

/-- Witness for `simplex_element_counts` at `d = 3`, `k = 1`. -/
theorem simplex_element_counts_witness :
    (vertsOf (simplex (fun i => i) 3)).length = 3 + 1 ∧
    elSize (simplex (fun i => i) 3) 1 = Nat.choose 4 2 :=
  simplex_element_counts (fun i => i) 3 1 (by decide)

/-! ## Counting the cross-polytope builder's cells (C5) -/

theorem pc_eq_one_iff (i : Nat) (hi : 1 ≤ i) : dropLow i = 0 ↔ pc i = 1 := by
  rw [pc_succ_drop i (by omega)]
  have := pc_eq_zero_iff (dropLow i)
  omega

theorem countP_map {α β : Type} (p : β → Bool) (f : α → β) (l : List α) :
    (l.map f).countP p = l.countP (fun a => p (f a)) := by
  induction l with
  | nil => rfl
  | cons x xs ih => simp [List.countP_cons, ih]

theorem crossStep_buckets_len {V : Type} (mkV : Nat → Nat → V) (st : CRState V)
    (p : Nat × Nat) : ((crossStep mkV st p).buckets).length = st.buckets.length := by
  unfold crossStep
  by_cases h1 : jand p.1 p.2 ≠ p.2
  · rw [if_pos h1]
  · rw [if_neg h1]
    by_cases h2 : dropLow p.1 = 0
    · rw [if_pos h2]
    · rw [if_neg h2]
      exact List.length_set ..

theorem crossStep_verts_len {V : Type} (mkV : Nat → Nat → V) (st : CRState V)
    (p : Nat × Nat) :
    ((crossStep mkV st p).verts).length = st.verts.length +
      (if jand p.1 p.2 = p.2 ∧ dropLow p.1 = 0 then 1 else 0) := by
  unfold crossStep
  by_cases h1 : jand p.1 p.2 ≠ p.2
  · rw [if_pos h1, if_neg (by tauto)]
    omega
  · rw [if_neg h1]
    by_cases h2 : dropLow p.1 = 0
    · rw [if_pos h2, if_pos ⟨by tauto, h2⟩]
      simp
    · rw [if_neg h2, if_neg (by tauto)]
      dsimp only
      omega

theorem crossStep_bucket_getD {V : Type} (mkV : Nat → Nat → V) (st : CRState V)
    (p : Nat × Nat) (k : Nat) (hk : k < st.buckets.length) :
    (((crossStep mkV st p).buckets).getD k []).length =
    (st.buckets.getD k []).length +
      (if jand p.1 p.2 = p.2 ∧ dropLow p.1 ≠ 0 ∧ pc p.1 - 2 = k then 1 else 0) := by
  unfold crossStep
  by_cases h1 : jand p.1 p.2 ≠ p.2
  · rw [if_pos h1, if_neg (by tauto)]
    omega
  · rw [if_neg h1]
    by_cases h2 : dropLow p.1 = 0
    · rw [if_pos h2, if_neg (by tauto)]
      dsimp only
      omega
    · rw [if_neg h2]
      show ((st.buckets.set ((bitList p.1).length - 1 - 1) _).getD k []).length = _
      by_cases hik : pc p.1 - 2 = k
      · have hidx : (bitList p.1).length - 1 - 1 = k := by
          unfold pc at hik
          omega
        rw [hidx, getD_set_self _ _ _ _ hk, if_pos ⟨by tauto, h2, hik⟩]
        simp
      · have hidx : (bitList p.1).length - 1 - 1 ≠ k := by
          unfold pc at hik
          omega
        rw [getD_set_ne _ _ _ _ _ hidx, if_neg (by tauto)]
        omega

theorem cross_fold_buckets_len {V : Type} (mkV : Nat → Nat → V)
    (l : List (Nat × Nat)) (st : CRState V) :
    ((l.foldl (crossStep mkV) st).buckets).length = st.buckets.length := by
  induction l generalizing st with
  | nil => rfl
  | cons x xs ih => rw [List.foldl_cons, ih, crossStep_buckets_len]

theorem cross_fold_verts (l : List (Nat × Nat)) {V : Type} (mkV : Nat → Nat → V)
    (st : CRState V) :
    ((l.foldl (crossStep mkV) st).verts).length = st.verts.length +
      l.countP (fun p => decide (jand p.1 p.2 = p.2 ∧ dropLow p.1 = 0)) := by
  induction l generalizing st with
  | nil => simp
  | cons x xs ih =>
    rw [List.foldl_cons, ih, crossStep_verts_len, List.countP_cons]
    by_cases hx : jand x.1 x.2 = x.2 ∧ dropLow x.1 = 0
    · rw [if_pos hx, if_pos (by simpa using hx)]
      omega
    · rw [if_neg hx, if_neg (by simpa using hx)]
      omega

theorem cross_fold_bucket (l : List (Nat × Nat)) {V : Type} (mkV : Nat → Nat → V)
    (st : CRState V) (k : Nat) (hk : k < st.buckets.length) :
    (((l.foldl (crossStep mkV) st).buckets).getD k []).length =
    (st.buckets.getD k []).length +
      l.countP (fun p => decide (jand p.1 p.2 = p.2 ∧ dropLow p.1 ≠ 0 ∧ pc p.1 - 2 = k)) := by
  induction l generalizing st with
  | nil => simp
  | cons x xs ih =>
    rw [List.foldl_cons, ih _ (by rw [crossStep_buckets_len]; exact hk),
      crossStep_bucket_getD mkV st x k hk, List.countP_cons]
    by_cases hx : jand x.1 x.2 = x.2 ∧ dropLow x.1 ≠ 0 ∧ pc x.1 - 2 = k
    · rw [if_pos hx, if_pos (by simpa using hx)]
      omega
    · rw [if_neg hx, if_neg (by simpa using hx)]
      omega

theorem range_pow_cons (d : Nat) :
    List.range (2 ^ d) = 0 :: List.range' 1 (2 ^ d - 1) := by
  rw [List.range_eq_range',
    show 2 ^ d = (2 ^ d - 1) + 1 by
      have := Nat.pos_pow_of_pos d (show 0 < 2 by omega)
      omega,
    List.range'_succ]
  simp

theorem crossPairs_vertex_count (d : Nat) :
    (crossPairs d).countP
      (fun p => decide (jand p.1 p.2 = p.2 ∧ dropLow p.1 = 0)) = 2 * d := by
  unfold crossPairs
  rw [countP_flatMap]
  have hstep : ∀ i ∈ List.range' 1 (2 ^ d - 1),
      ((List.range (2 ^ d)).map (fun j => (i, j))).countP
        (fun p => decide (jand p.1 p.2 = p.2 ∧ dropLow p.1 = 0)) =
      (if decide (dropLow i = 0) then 2 else 0) := by
    intro i hi
    rw [List.mem_range'_1] at hi
    rw [countP_map]
    by_cases h0 : dropLow i = 0
    · rw [if_pos (by simpa using h0)]
      have hcg : (List.range (2 ^ d)).countP
          (fun j => decide (jand i j = j ∧ dropLow i = 0)) =
          (List.range (2 ^ d)).countP (fun j => jand i j == j) := by
        apply List.countP_congr
        intro j _
        simp [h0]
      rw [hcg, countP_submask_range d i (by omega), (pc_eq_one_iff i (by omega)).mp h0]
      rfl
    · rw [if_neg (by simpa using h0)]
      apply List.countP_eq_zero.mpr
      intro j _
      simp [h0]
  rw [sum_map_congr _ _ _ hstep, sum_map_ite_const _ (fun i => decide (dropLow i = 0)) 2]
  have hcg2 : (List.range' 1 (2 ^ d - 1)).countP (fun i => decide (dropLow i = 0)) =
      (List.range' 1 (2 ^ d - 1)).countP (fun i => pc i == 1) := by
    apply List.countP_congr
    intro i hi
    rw [List.mem_range'_1] at hi
    have := pc_eq_one_iff i (by omega)
    constructor
    · intro h
      simp only [beq_iff_eq]
      exact this.mp (by simpa using h)
    · intro h
      apply decide_eq_true
      exact this.mpr (by simpa using h)
  rw [hcg2]
  have hpcr := countP_pc_range d 1
  rw [range_pow_cons d, List.countP_cons] at hpcr
  have hz : (pc 0 == 1) = false := by
    rw [pc_zero]
    simp
  rw [hz] at hpcr
  simp only [Bool.false_eq_true, if_false, Nat.add_zero] at hpcr
  rw [hpcr, Nat.choose_one_right]

theorem crossPairs_cell_count (d k : Nat) :
    (crossPairs d).countP
      (fun p => decide (jand p.1 p.2 = p.2 ∧ dropLow p.1 ≠ 0 ∧ pc p.1 - 2 = k)) =
      Nat.choose d (k + 2) * 2 ^ (k + 2) := by
  unfold crossPairs
  rw [countP_flatMap]
  have hstep : ∀ i ∈ List.range' 1 (2 ^ d - 1),
      ((List.range (2 ^ d)).map (fun j => (i, j))).countP
        (fun p => decide (jand p.1 p.2 = p.2 ∧ dropLow p.1 ≠ 0 ∧ pc p.1 - 2 = k)) =
      (if decide (pc i = k + 2) then 2 ^ (k + 2) else 0) := by
    intro i hi
    rw [List.mem_range'_1] at hi
    rw [countP_map]
    by_cases h0 : pc i = k + 2
    · rw [if_pos (by simpa using h0)]
      have hd0 : dropLow i ≠ 0 := by
        have := two_le_pc_iff i
        omega
      have hcg : (List.range (2 ^ d)).countP
          (fun j => decide (jand i j = j ∧ dropLow i ≠ 0 ∧ pc i - 2 = k)) =
          (List.range (2 ^ d)).countP (fun j => jand i j == j) := by
        apply List.countP_congr
        intro j _
        simp [hd0, h0]
      rw [hcg, countP_submask_range d i (by omega), h0]
    · rw [if_neg (by simpa using h0)]
      apply List.countP_eq_zero.mpr
      intro j _
      have hno : ¬ (jand i j = j ∧ dropLow i ≠ 0 ∧ pc i - 2 = k) := by
        rintro ⟨_, hd0, hpc⟩
        have := two_le_pc_iff i
        omega
      simpa using hno
  rw [sum_map_congr _ _ _ hstep,
    sum_map_ite_const _ (fun i => decide (pc i = k + 2)) (2 ^ (k + 2))]
  have hcg2 : (List.range' 1 (2 ^ d - 1)).countP (fun i => decide (pc i = k + 2)) =
      (List.range' 1 (2 ^ d - 1)).countP (fun i => pc i == k + 2) := by
    apply List.countP_congr
    intro i _
    simp
  rw [hcg2]
  have hpcr := countP_pc_range d (k + 2)
  rw [range_pow_cons d, List.countP_cons] at hpcr
  have hz : (pc 0 == k + 2) = false := by
    rw [pc_zero]
    simp
  rw [hz] at hpcr
  simp only [Bool.false_eq_true, if_false, Nat.add_zero] at hpcr
  rw [hpcr, Nat.mul_comm]

/-- C5 (amended).  For every `d ≥ 1` the cross-polytope builder produces
`2d` vertices, `C(d, k+1) · 2^(k+1)` cells of rank `k` for `0 ≤ k < d`,
and a single top-rank cell. -/
theorem cross_element_counts {V : Type} (mkV : Nat → Nat → V) (d k : Nat)
    (hd : 1 ≤ d) (hk : k < d) :
    ∃ C, cross mkV d = some C ∧
      (vertsOf C).length = 2 * d ∧
      elSize C k = Nat.choose d (k + 1) * 2 ^ (k + 1) ∧
      elSize C d = 1 := by
  have hlen : ((crossFold mkV d).buckets).length = d := by
    unfold crossFold
    rw [cross_fold_buckets_len]
    simp
  have hverts : ((crossFold mkV d).verts).length = 2 * d := by
    unfold crossFold
    rw [cross_fold_verts]
    show 0 + _ = 2 * d
    rw [Nat.zero_add]
    exact crossPairs_vertex_count d
  refine ⟨⟨some ((crossFold mkV d).verts,
      (crossFold mkV d).buckets.set (d - 1)
        [List.range (if d = 1 then ((crossFold mkV d).verts).length
          else (((crossFold mkV d).buckets).getD (d - 2) []).length)])⟩,
    ?_, ?_, ?_, ?_⟩
  · show cross mkV d = _
    unfold cross
    rw [if_neg (by omega)]
  · exact hverts
  · cases k with
    | zero =>
      show ((crossFold mkV d).verts).length = _
      rw [hverts, Nat.choose_one_right, pow_one, Nat.mul_comm]
    | succ k' =>
      show (((crossFold mkV d).buckets.set (d - 1) _).getD k' []).length = _
      rw [getD_set_ne _ _ _ _ _ (by omega)]
      have hb := cross_fold_bucket (crossPairs d) mkV
        ⟨[], List.replicate d [], fun _ _ => 0⟩ k' (by simpa using by omega)
      unfold crossFold
      rw [hb]
      show (((List.replicate d ([] : List (List Nat))).getD k' []).length) + _ = _
      rw [getD_replicate]
      show 0 + _ = _
      rw [Nat.zero_add, crossPairs_cell_count d k']
  · unfold elSize
    rw [if_neg (show ¬ d = 0 by omega)]
    show (((crossFold mkV d).buckets.set (d - 1) _).getD (d - 1) []).length = 1
    rw [getD_set_self _ _ _ _ (by omega)]
    simp

/-- C5 (counterexample).  At `d = 0` the cross-polytope builder does not
produce the claimed model at all: the source reads `els[-1].length`
(`undefined`), a TypeError, embedded as `none`.  (The claim is also
internally impossible at `d = 0`: it asks for `2·0 = 0` vertices together
with one cell of rank 0 — but rank-0 cells are the vertices.) -/
theorem cross_zero_fails : cross (fun i j => (i, j)) 0 = none := rfl

/-- Witness for `cross_element_counts` at `d = 3`, `k = 1`. -/
theorem cross_element_counts_witness :
    ∃ C, cross (fun i j => (i, j)) 3 = some C ∧
      (vertsOf C).length = 2 * 3 ∧
      elSize C 1 = Nat.choose 3 2 * 2 ^ 2 ∧
      elSize C 3 = 1 :=
  cross_element_counts (fun i j => (i, j)) 3 1 (by decide) (by decide)

/-! ## The regular polygon builder's compound structure (C7) -/

/-- The vertex visited at step `t` of component `c`:
`x`/`y` walk `c, c+d, c+2d, …` mod `n`. -/
def rpS (n d c t : Nat) : Nat := (c + t * d) % n

theorem wrap_eq_mod (n a d : Nat) (ha : a < n) (hd : d < n) :
    (if n ≤ a + d then a + d - n else a + d) = (a + d) % n := by
  by_cases h : n ≤ a + d
  · rw [if_pos h]
    have h2 : a + d - n < n := by omega
    have h3 : (a + d) % n = (a + d - n) % n := by
      conv_lhs => rw [show a + d = (a + d - n) + n by omega]
      rw [Nat.add_mod_right]
    rw [h3, Nat.mod_eq_of_lt h2]
  · rw [if_neg h, Nat.mod_eq_of_lt (by omega)]

theorem rpS_step (n d c t : Nat) : (rpS n d c t + d) % n = rpS n d c (t + 1) := by
  unfold rpS
  conv_rhs => rw [show c + (t + 1) * d = (c + t * d) + d by ring]
  rw [Nat.mod_add_mod]

theorem rp_inner (n d c : Nat) (hdn : d < n) (counter0 : Nat)
    (E0 : List (List Nat)) (t : Nat) :
    (List.range t).foldl (rpEdgeStep n d)
      ⟨rpS n d c 0, rpS n d c 1, counter0, E0, []⟩ =
    ⟨rpS n d c t, rpS n d c (t + 1), counter0 + t,
      E0 ++ (List.range t).map (fun u => [rpS n d c u, rpS n d c (u + 1)]),
      (List.range t).map (fun u => counter0 + u)⟩ := by
  induction t with
  | zero => simp
  | succ t ih =>
    rw [List.range_succ, List.foldl_append, ih]
    show rpEdgeStep n d _ t = _
    unfold rpEdgeStep
    dsimp only
    have hy : (if n ≤ rpS n d c (t + 1) + d then rpS n d c (t + 1) + d - n
        else rpS n d c (t + 1) + d) = rpS n d c (t + 1 + 1) := by
      rw [wrap_eq_mod n (rpS n d c (t + 1)) d (Nat.mod_lt _ (by omega)) hdn]
      exact rpS_step n d c (t + 1)
    rw [hy]
    simp only [RPInner.mk.injEq]
    refine ⟨trivial, trivial, by omega, ?_, ?_⟩
    · rw [List.map_append, List.append_assoc]
      rfl
    · rw [List.map_append]
      rfl

theorem rpS_cycle (n d c : Nat) (hd : 0 < d) (hdn : d < n) (hc : c < n) :
    rpS n d c (n / Nat.gcd n d) = c := by
  unfold rpS
  set g := Nat.gcd n d with hgdef
  obtain ⟨e, he⟩ : g ∣ d := Nat.gcd_dvd_right n d
  have hmul : n / g * d = n * e := by
    rw [he, ← Nat.mul_assoc, Nat.div_mul_cancel (Nat.gcd_dvd_left n d)]
  rw [hmul, Nat.add_mul_mod_self_left, Nat.mod_eq_of_lt hc]

theorem rpS_succ_q (n d c : Nat) (hd : 0 < d) (hdn : d < n) (hc : c < n) :
    rpS n d c (n / Nat.gcd n d + 1) = (c + d) % n := by
  have h1 : rpS n d c (n / Nat.gcd n d + 1) = (rpS n d c (n / Nat.gcd n d) + d) % n :=
    (rpS_step n d c (n / Nat.gcd n d)).symm
  rw [h1, rpS_cycle n d c hd hdn hc]

theorem mod_boundary (n d c : Nat) (hd : 0 < d) (hdn : d < n)
    (hg : c + 1 < Nat.gcd n d) :
    (c + d) % n + 1 = (c + 1 + d) % n := by
  set g := Nat.gcd n d with hgdef
  have hgn : g ∣ n := Nat.gcd_dvd_left n d
  have hgd : g ∣ d := Nat.gcd_dvd_right n d
  have hg0 : 0 < g := by omega
  have hglc : g ≤ d := Nat.le_of_dvd hd hgd
  have hcd : (c + d) % n < n := Nat.mod_lt _ (by omega)
  have hne : (c + d) % n ≠ n - 1 := by
    intro he
    have h1 : (c + d) % n % g = (c + d) % g := Nat.mod_mod_of_dvd _ hgn
    obtain ⟨e, he2⟩ := hgd
    have h2 : (c + d) % g = c % g := by
      rw [he2, Nat.add_mul_mod_self_left]
    have h3 : c % g = c := Nat.mod_eq_of_lt (by omega)
    obtain ⟨m, hm⟩ := hgn
    have hm1 : 1 ≤ m := by
      rcases Nat.eq_zero_or_pos m with h | h
      · subst h
        omega
      · exact h
    have h4 : (n - 1) % g = g - 1 := by
      rw [hm, show g * m - 1 = g * (m - 1) + (g - 1) by
          cases m with
          | zero => omega
          | succ m' =>
            have hx : g * (m' + 1) = g * m' + g := by ring
            have hy : (m' + 1) - 1 = m' := by omega
            rw [hx, hy]
            omega]
      rw [Nat.mul_add_mod, Nat.mod_eq_of_lt (by omega)]
    rw [he, h4, h2, h3] at h1
    omega
  have h5 : (c + 1 + d) % n = ((c + d) % n + 1) % n := by
    rw [show c + 1 + d = (c + d) + 1 by ring, Nat.add_mod (c + d) 1 n,
      Nat.mod_eq_of_lt (show 1 < n by omega)]
  rw [h5, Nat.mod_eq_of_lt (show (c + d) % n + 1 < n by omega)]

theorem rpS_inj (n d : Nat) (hd : 0 < d) (hdn : d < n) (c : Nat) (t t' : Nat)
    (ht : t < n / Nat.gcd n d) (ht' : t' < n / Nat.gcd n d)
    (he : rpS n d c t = rpS n d c t') : t = t' := by
  have main : ∀ u u' : Nat, u' ≤ u → u < n / Nat.gcd n d → u' < n / Nat.gcd n d →
      rpS n d c u = rpS n d c u' → u = u' := by
    intro u u' hle hu hu' heq
    unfold rpS at heq
    have hmodeq : (c + u' * d) ≡ (c + u * d) [MOD n] := by
      unfold Nat.ModEq
      rw [heq]
    have hmodeq2 : u' * d ≡ u * d [MOD n] :=
      (Nat.ModEq.add_left_cancel' c) hmodeq
    have hdvd : n ∣ u * d - u' * d :=
      (Nat.modEq_iff_dvd' (Nat.mul_le_mul_right d hle)).mp hmodeq2
    rw [← Nat.sub_mul] at hdvd
    set g := Nat.gcd n d with hgdef
    have hg0 : 0 < g := Nat.gcd_pos_of_pos_right n hd
    have hco : (n / g).Coprime (d / g) := Nat.coprime_div_gcd_div_gcd hg0
    have hn : g * (n / g) = n := Nat.mul_div_cancel' (Nat.gcd_dvd_left n d)
    have hdd : g * (d / g) = d := Nat.mul_div_cancel' (Nat.gcd_dvd_right n d)
    have hdvd2 : g * (n / g) ∣ g * ((u - u') * (d / g)) := by
      rw [hn]
      have hstep : (u - u') * d = g * ((u - u') * (d / g)) := by
        calc (u - u') * d = (u - u') * (g * (d / g)) := by rw [hdd]
          _ = g * ((u - u') * (d / g)) := by ring
      rw [← hstep]
      exact hdvd
    have hdvd3 : n / g ∣ (u - u') * (d / g) :=
      (Nat.mul_dvd_mul_iff_left hg0).mp hdvd2
    have hdvd4 : n / g ∣ u - u' := hco.dvd_of_dvd_mul_right hdvd3
    have : u - u' = 0 := by
      rcases Nat.eq_zero_or_pos (u - u') with h | h
      · exact h
      · exact absurd (Nat.le_of_dvd h hdvd4) (by omega)
    omega
  rcases Nat.le_total t' t with h | h
  · exact main t t' h ht ht' he
  · exact (main t' t h ht' ht he.symm).symm

theorem rpS_mod_gcd (n d c t : Nat) :
    rpS n d c t % Nat.gcd n d = c % Nat.gcd n d := by
  unfold rpS
  set g := Nat.gcd n d with hgdef
  have hgn : g ∣ n := Nat.gcd_dvd_left n d
  rw [Nat.mod_mod_of_dvd _ hgn]
  obtain ⟨e, he⟩ : g ∣ d := Nat.gcd_dvd_right n d
  rw [he, show c + t * (g * e) = c + g * (t * e) by ring,
    Nat.add_mul_mod_self_left]

theorem rpS_disjoint (n d : Nat) (c c' t t' : Nat) (hc : c < Nat.gcd n d)
    (hc' : c' < Nat.gcd n d) (hne : c ≠ c') : rpS n d c t ≠ rpS n d c' t' := by
  intro he
  have h1 := rpS_mod_gcd n d c t
  have h2 := rpS_mod_gcd n d c' t'
  rw [he, h2, Nat.mod_eq_of_lt hc', Nat.mod_eq_of_lt hc] at h1
  · exact hne h1.symm

/-! ## Indexing into concatenations of blocks -/

theorem sum_map_const {α : Type} (l : List α) (c : Nat) :
    (l.map (fun _ => c)).sum = l.length * c := by
  induction l with
  | nil => simp
  | cons x xs ih =>
    simp only [List.map_cons, List.sum_cons, ih, List.length_cons]
    ring

theorem getElem?_flatMap_range' {α : Type} (f : Nat → List α) :
    ∀ (L s m k : Nat), s ≤ m → m < s + L → k < (f m).length →
      ((List.range' s L).flatMap f)[(((List.range' s (m - s)).map
        (fun x => (f x).length)).sum + k)]? = (f m)[k]? := by
  intro L
  induction L with
  | zero =>
    intro s m k h1 h2 _
    omega
  | succ L ih =>
    intro s m k h1 h2 hk
    rw [List.range'_succ, List.flatMap_cons]
    rcases Nat.eq_or_lt_of_le h1 with hms | hms
    · subst hms
      rw [Nat.sub_self]
      show (f s ++ _)[(([] : List Nat).sum + k)]? = _
      rw [List.sum_nil, Nat.zero_add, List.getElem?_append_left hk]
    · have hsub : m - s = (m - (s + 1)) + 1 := by omega
      rw [hsub, List.range'_succ, List.map_cons, List.sum_cons]
      rw [Nat.add_assoc, List.getElem?_append_right (by omega)]
      rw [show (f s).length + (((List.range' (s + 1) (m - (s + 1))).map
        (fun x => (f x).length)).sum + k) - (f s).length =
        ((List.range' (s + 1) (m - (s + 1))).map (fun x => (f x).length)).sum + k
        by omega]
      exact ih (s + 1) m k (by omega) (by omega) hk

theorem getD_map_range {α : Type} (f : Nat → α) (g c : Nat) (dflt : α)
    (h : c < g) : ((List.range g).map f).getD c dflt = f c := by
  unfold List.getD
  rw [List.get?_eq_getElem?, List.getElem?_map, List.getElem?_range h]
  rfl

theorem rp_outer (n d : Nat) (hd : 0 < d) (hdn : d < n) :
    ∀ c, c ≤ Nat.gcd n d →
      ∃ x y, (List.range c).foldl (rpCompStep n d (n / Nat.gcd n d)) ⟨0, d, 0, [], []⟩ =
        ⟨x, y, c * (n / Nat.gcd n d),
          (List.range c).flatMap (fun e => (List.range (n / Nat.gcd n d)).map
            (fun u => [rpS n d e u, rpS n d e (u + 1)])),
          (List.range c).map (fun e => (List.range (n / Nat.gcd n d)).map
            (fun u => e * (n / Nat.gcd n d) + u))⟩ ∧
        (c < Nat.gcd n d → x = c ∧ y = (c + d) % n) := by
  intro c
  induction c with
  | zero =>
    intro _
    refine ⟨0, d, by simp, fun _ => ⟨rfl, by rw [Nat.zero_add, Nat.mod_eq_of_lt hdn]⟩⟩
  | succ c ih =>
    intro hc1
    have hglc : Nat.gcd n d ≤ d := Nat.le_of_dvd hd (Nat.gcd_dvd_right n d)
    have hcn : c < n := by omega
    obtain ⟨x, y, heq, hcond⟩ := ih (by omega)
    obtain ⟨hx, hy⟩ := hcond (by omega)
    rw [hx, hy] at heq
    rw [List.range_succ, List.foldl_append, heq]
    refine ⟨rpS n d c (n / Nat.gcd n d) + 1, rpS n d c (n / Nat.gcd n d + 1) + 1,
      ?_, ?_⟩
    · simp only [List.foldl_cons, List.foldl_nil]
      unfold rpCompStep
      dsimp only
      have hstart : (⟨c, (c + d) % n, c * (n / Nat.gcd n d),
          (List.range c).flatMap (fun e => (List.range (n / Nat.gcd n d)).map
            (fun u => [rpS n d e u, rpS n d e (u + 1)])), []⟩ : RPInner) =
          ⟨rpS n d c 0, rpS n d c 1, c * (n / Nat.gcd n d),
            (List.range c).flatMap (fun e => (List.range (n / Nat.gcd n d)).map
              (fun u => [rpS n d e u, rpS n d e (u + 1)])), []⟩ := by
        have h0 : rpS n d c 0 = c := by
          unfold rpS
          rw [Nat.zero_mul, Nat.add_zero, Nat.mod_eq_of_lt hcn]
        have h1 : rpS n d c 1 = (c + d) % n := by
          unfold rpS
          rw [Nat.one_mul]
        rw [h0, h1]
      rw [hstart, rp_inner n d c hdn _ _ (n / Nat.gcd n d)]
      dsimp only
      simp only [RPOuter.mk.injEq]
      refine ⟨trivial, trivial, by ring, ?_, ?_⟩
      · rw [List.flatMap_append]
        simp
      · rw [List.map_append]
        simp
    · intro hlt
      refine ⟨by rw [rpS_cycle n d c hd hdn hcn], ?_⟩
      rw [rpS_succ_q n d c hd hdn hcn]
      exact mod_boundary n d c hd hdn (by omega)

/-- C7.  For a valid winding-polygon call (`0 < d < n`) with
`g = gcd(n, d) > 1`, the builder produces `n` vertices, exactly `g`
top-rank components, the `c`-th consisting of the `n/g` consecutive edge
indices `c·(n/g) + u`; edge `c·(n/g) + t` joins the vertices
`(c + t·d) mod n` and `(c + (t+1)·d) mod n`, so each component's edges walk
a closed cycle (`rpS` returns to its start after `n/g` steps) over `n/g`
distinct vertices, and the vertex sets of different components are
disjoint. -/
theorem regularPolygon_compound {V : Type} (vtx : Nat → V) (n d : Nat)
    (hd : 0 < d) (hdn : d < n) (hg : 1 < Nat.gcd n d) :
    (vertsOf (regularPolygon vtx n d)).length = n ∧
    (rankCells (regularPolygon vtx n d) 2).length = Nat.gcd n d ∧
    (∀ c, c < Nat.gcd n d → (rankCells (regularPolygon vtx n d) 2).getD c [] =
      (List.range (n / Nat.gcd n d)).map (fun u => c * (n / Nat.gcd n d) + u)) ∧
    (rankCells (regularPolygon vtx n d) 1).length = n ∧
    (∀ c, c < Nat.gcd n d → ∀ t, t < n / Nat.gcd n d →
      (rankCells (regularPolygon vtx n d) 1).getD (c * (n / Nat.gcd n d) + t) [] =
        [rpS n d c t, rpS n d c (t + 1)]) ∧
    (∀ c, c < Nat.gcd n d → rpS n d c (n / Nat.gcd n d) = rpS n d c 0) ∧
    (∀ c, c < Nat.gcd n d → ∀ t, t < n / Nat.gcd n d → ∀ t', t' < n / Nat.gcd n d →
      rpS n d c t = rpS n d c t' → t = t') ∧
    (∀ c, c < Nat.gcd n d → ∀ c', c' < Nat.gcd n d → c ≠ c' → ∀ t t',
      rpS n d c t ≠ rpS n d c' t') := by
  have hglc : Nat.gcd n d ≤ d := Nat.le_of_dvd hd (Nat.gcd_dvd_right n d)
  obtain ⟨x, y, heq, _⟩ := rp_outer n d hd hdn (Nat.gcd n d) (le_refl _)
  have hedges : rankCells (regularPolygon vtx n d) 1 =
      (List.range (Nat.gcd n d)).flatMap (fun e =>
        (List.range (n / Nat.gcd n d)).map
          (fun u => [rpS n d e u, rpS n d e (u + 1)])) := by
    show ((List.range (Nat.gcd n d)).foldl
      (rpCompStep n d (n / Nat.gcd n d)) ⟨0, d, 0, [], []⟩).edges = _
    rw [heq]
  have hcomps : rankCells (regularPolygon vtx n d) 2 =
      (List.range (Nat.gcd n d)).map (fun e =>
        (List.range (n / Nat.gcd n d)).map
          (fun u => e * (n / Nat.gcd n d) + u)) := by
    show ((List.range (Nat.gcd n d)).foldl
      (rpCompStep n d (n / Nat.gcd n d)) ⟨0, d, 0, [], []⟩).comps = _
    rw [heq]
  refine ⟨?_, ?_, ?_, ?_, ?_, ?_, ?_, ?_⟩
  · show ((List.range n).map vtx).length = n
    simp
  · rw [hcomps]
    simp
  · intro c hc
    rw [hcomps, getD_map_range _ _ _ _ hc]
  · rw [hedges, List.length_flatMap]
    rw [sum_map_congr _ _ (fun _ => n / Nat.gcd n d) (by
      intro a _
      simp), sum_map_const]
    rw [List.length_range]
    exact Nat.mul_div_cancel' (Nat.gcd_dvd_left n d)
  · intro c hc t ht
    rw [hedges]
    have hlen : ∀ e : Nat, ((List.range (n / Nat.gcd n d)).map
        (fun u => [rpS n d e u, rpS n d e (u + 1)])).length = n / Nat.gcd n d := by
      intro e
      simp
    have hsum : ((List.range' 0 c).map (fun e =>
        ((List.range (n / Nat.gcd n d)).map
          (fun u => [rpS n d e u, rpS n d e (u + 1)])).length)).sum =
        c * (n / Nat.gcd n d) := by
      rw [sum_map_congr _ _ (fun _ => n / Nat.gcd n d) (fun a _ => hlen a),
        sum_map_const]
      simp [List.length_range']
    have hix := getElem?_flatMap_range' (fun e =>
      (List.range (n / Nat.gcd n d)).map
        (fun u => [rpS n d e u, rpS n d e (u + 1)])) (Nat.gcd n d) 0 c t
      (by omega) (by omega) (by rw [hlen c]; exact ht)
    rw [Nat.sub_zero, hsum] at hix
    unfold List.getD
    rw [List.get?_eq_getElem?, List.range_eq_range', hix, List.getElem?_map,
      List.getElem?_range ht]
    rfl
  · intro c hc
    rw [rpS_cycle n d c hd hdn (by omega)]
    unfold rpS
    rw [Nat.zero_mul, Nat.add_zero, Nat.mod_eq_of_lt (by omega)]
  · intro c _ t ht t' ht' he
    exact rpS_inj n d hd hdn c t t' ht ht' he
  · intro c hc c' hc' hne t t'
    exact rpS_disjoint n d c c' t t' hc hc' hne

/-- Witness for `regularPolygon_compound` at `(n, d) = (6, 2)`: two
components, `[0,1,2]` and `[3,4,5]`, and the first edge joins vertices
0 and 2. -/
theorem regularPolygon_compound_witness :
    (rankCells (regularPolygon (fun i => i) 6 2) 2).length = 2 ∧
    (rankCells (regularPolygon (fun i => i) 6 2) 2).getD 0 [] = [0, 1, 2] ∧
    (rankCells (regularPolygon (fun i => i) 6 2) 2).getD 1 [] = [3, 4, 5] ∧
    (rankCells (regularPolygon (fun i => i) 6 2) 1).getD 0 [] = [0, 2] := by
  have h := regularPolygon_compound (fun i => i) 6 2 (by decide) (by decide)
    (by decide)
  refine ⟨h.2.1, ?_, ?_, ?_⟩
  · rw [h.2.2.1 0 (by decide)]
    decide
  · rw [h.2.2.1 1 (by decide)]
    decide
  · rw [show (0 : Nat) = 0 * (6 / Nat.gcd 6 2) + 0 by decide,
      h.2.2.2.2.1 0 (by decide) 0 (by decide)]
    decide

/-! ## C8: the tegum product's vertex layout -/

/-- A test operand: a dyad-like polytope with vertices `[3]`, `[4]`. -/
def tegP : PolyC (List ℚ) := ⟨some ([[3], [4]], [[[0, 1]]])⟩

/-- A test operand: a dyad-like polytope with vertices `[5]`, `[6]`. -/
def tegQ : PolyC (List ℚ) := ⟨some ([[5], [6]], [[[0, 1]]])⟩

/-- The vertex list the claim's words predict for the tegum product:
`Q`'s vertices with *trailing* zero-padding, then `P`'s with *leading*
zero-padding.  (Stated from the claim for comparison; the source does the
opposite.) -/
def claimTegumVerts (P Q : PolyC (List ℚ)) : List (List ℚ) :=
  (vertsOf Q).map (fun q => padRight q (spaceDims P).toNat) ++
  (vertsOf P).map (fun p => padLeft p (spaceDims Q).toNat)

/-- C8 (counterexample): on two one-dimensional operands the tegum
product's actual vertex list pads `Q`'s vertices on the *left* and `P`'s
on the *right* — the opposite sides from the ones the claim states. -/
theorem tegum_padding_sides_swapped :
    vertsOf (tegumFn tegP tegQ) = [[0, 5], [0, 6], [3, 0], [4, 0]] ∧
    claimTegumVerts tegP tegQ = [[5, 0], [6, 0], [0, 3], [0, 4]] ∧
    vertsOf (tegumFn tegP tegQ) ≠ claimTegumVerts tegP tegQ := by
  refine ⟨rfl, rfl, ?_⟩
  decide

/-- C8 (amended): for operands of positive rank with element lists present,
the tegum product's vertex list is `Q`'s vertices embedded with *leading*
zero-padding into `P`'s ambient space, followed by `P`'s vertices embedded
with *trailing* zero-padding into `Q`'s ambient space; the vertex sets are
concatenated side by side (`|P| + |Q|` vertices), not multiplied. -/
theorem tegum_vertex_layout (P Q : PolyC (List ℚ))
    (pv qv : List (List ℚ)) (pc qc : List (List (List Nat)))
    (hPd : 0 < dims P) (hQd : 0 < dims Q)
    (hP : P.elems = some (pv, pc)) (hQ : Q.elems = some (qv, qc)) :
    vertsOf (tegumFn P Q) =
      qv.map (fun q => padLeft q (spaceDims P).toNat) ++
      pv.map (fun p => padRight p (spaceDims Q).toNat) ∧
    (vertsOf (tegumFn P Q)).length = pv.length + qv.length := by
  have h1 : ¬ (dims P ≤ 0 ∨ Q.elems = none) := by
    rw [hQ]; push_neg; exact ⟨by omega, by simp⟩
  have h2 : ¬ (dims Q ≤ 0 ∨ P.elems = none) := by
    rw [hP]; push_neg; exact ⟨by omega, by simp⟩
  unfold tegumFn
  rw [if_neg h1, if_neg h2, hP, hQ]
  dsimp only
  refine ⟨rfl, ?_⟩
  simp [vertsOf, List.length_map]
  omega

/-- C8 (witness): the amended layout theorem instantiated on the two test
dyads. -/
theorem tegum_vertex_layout_witness :
    vertsOf (tegumFn tegP tegQ) =
      ([[5], [6]] : List (List ℚ)).map (fun q => padLeft q (spaceDims tegP).toNat) ++
      ([[3], [4]] : List (List ℚ)).map (fun p => padRight p (spaceDims tegQ).toNat) ∧
    (vertsOf (tegumFn tegP tegQ)).length = 2 + 2 :=
  tegum_vertex_layout tegP tegQ [[3], [4]] [[5], [6]] [[[0, 1]]] [[[0, 1]]]
    (by decide) (by decide) rfl rfl

/-! ## C2: the prism-product index lookup

`countPrism` (= the source's `memoizer[m][n]`) is first given a closed
form as a sum over the `(m', n')` blocks emitted before block `(m, n)`;
the emission list is then decomposed into those blocks, locating the
index. -/

theorem countPrism_eq_sum {V : Type} (P Q : PolyC V) :
    ∀ (m n : Nat), n < elLen Q →
      countPrism P Q m n = ((List.range m).map (fun x =>
        if m + n - x < elLen Q then elSize P x * elSize Q (m + n - x) else 0)).sum := by
  intro m
  induction m with
  | zero => intro n _; rfl
  | succ m ih =>
    intro n hn
    have hstep : countPrism P Q (m + 1) n =
        if n = elLen Q - 1 then 0
        else countPrism P Q m (n + 1) + elSize P m * elSize Q (n + 1) := rfl
    by_cases h : n = elLen Q - 1
    · rw [hstep, if_pos h]
      have hz : ∀ x ∈ List.range (m + 1),
          (if m + 1 + n - x < elLen Q then elSize P x * elSize Q (m + 1 + n - x) else 0)
            = (fun _ : Nat => 0) x := by
        intro x hx
        rw [List.mem_range] at hx
        exact if_neg (by omega)
      rw [sum_map_congr _ _ _ hz, sum_map_const]
      omega
    · have hn1 : n + 1 < elLen Q := by omega
      rw [hstep, if_neg h, ih (n + 1) hn1, List.range_succ, List.map_append,
        List.sum_append, List.map_cons, List.map_nil, List.sum_cons, List.sum_nil]
      rw [show m + 1 + n - m = n + 1 by omega, if_pos hn1]
      have hcg : ∀ x ∈ List.range m,
          (if m + (n + 1) - x < elLen Q then elSize P x * elSize Q (m + (n + 1) - x) else 0)
            = (fun x => if m + 1 + n - x < elLen Q
                then elSize P x * elSize Q (m + 1 + n - x) else 0) x := by
        intro x hx
        rw [show m + (n + 1) - x = m + 1 + n - x by omega]
      rw [sum_map_congr _ _ _ hcg]
      omega

theorem flatMap_lex_getElem? {α β : Type} (f : α → List β) (b : Nat) :
    ∀ (l : List α) (i j : Nat) (x : α), l[i]? = some x →
      (∀ a ∈ l, (f a).length = b) → j < b →
      (l.flatMap f)[i * b + j]? = (f x)[j]? := by
  intro l
  induction l with
  | nil => intro i j x hx _ _; simp at hx
  | cons a as ih =>
    intro i j x hx hb hj
    rw [List.flatMap_cons]
    cases i with
    | zero =>
      simp only [List.getElem?_cons_zero, Option.some.injEq] at hx
      subst hx
      rw [Nat.zero_mul, Nat.zero_add,
        List.getElem?_append_left (by rw [hb a (by simp)]; exact hj)]
    | succ i =>
      simp only [List.getElem?_cons_succ] at hx
      have hlen : (f a).length = b := hb a (by simp)
      rw [Nat.succ_mul, List.getElem?_append_right (by omega)]
      rw [show (i * b + b) + j - (f a).length = i * b + j by omega]
      exact ih i j x hx (fun a' ha' => hb a' (by simp [ha'])) hj

theorem flatMap_congr {α β : Type} (l : List α) (f g : α → List β)
    (h : ∀ a ∈ l, f a = g a) : l.flatMap f = l.flatMap g := by
  induction l with
  | nil => rfl
  | cons x xs ih =>
    rw [List.flatMap_cons, List.flatMap_cons, h x (by simp),
      ih (fun a ha => h a (by simp [ha]))]

theorem range'_flatMap_ite {α : Type} (B : Nat → List α) (r : Nat) :
    ∀ (len s : Nat),
      (List.range' s len).flatMap (fun n => if n = r then B n else []) =
      if s ≤ r ∧ r < s + len then B r else [] := by
  intro len
  induction len with
  | zero => intro s; rw [if_neg (by omega)]; rfl
  | succ len ih =>
    intro s
    rw [List.range'_succ, List.flatMap_cons, ih (s + 1)]
    by_cases h : s = r
    · subst h
      rw [if_pos rfl, if_neg (by omega), if_pos (by omega), List.append_nil]
    · rw [if_neg h]
      by_cases h2 : s + 1 ≤ r ∧ r < s + 1 + len
      · rw [if_pos h2, if_pos (by omega), List.nil_append]
      · rw [if_neg h2, if_neg (by omega), List.nil_append]

/-- The `(m, n)` block of prism emissions: all pairs `((m, i), (n, j))` in
lexicographic order, tagged with their bucket `m + n`. -/
def prismBlock {V : Type} (P Q : PolyC V) (m n : Nat) :
    List (Nat × ((Nat × Nat) × (Nat × Nat))) :=
  (List.range (elSize P m)).flatMap (fun i =>
    (List.range (elSize Q n)).map (fun j => (m + n, ((m, i), (n, j)))))

theorem prismEmits_eq_blocks {V : Type} (P Q : PolyC V) :
    prismEmits P Q = (List.range (topRank P + 1)).flatMap (fun m =>
      (List.range' (if m = 0 then 1 else 0)
        (topRank Q + 1 - (if m = 0 then 1 else 0))).flatMap (fun n =>
        prismBlock P Q m n)) := rfl

theorem prismBlock_length {V : Type} (P Q : PolyC V) (m n : Nat) :
    (prismBlock P Q m n).length = elSize P m * elSize Q n := by
  unfold prismBlock
  rw [List.length_flatMap]
  have h : ∀ x ∈ List.range (elSize P m),
      (List.length ∘ fun i => (List.range (elSize Q n)).map
        (fun j => (m + n, ((m, i), (n, j))))) x = (fun _ : Nat => elSize Q n) x := by
    intro x _
    simp
  rw [sum_map_congr _ _ _ h, sum_map_const, List.length_range]

theorem prismBlock_filter {V : Type} (P Q : PolyC V) (m n r : Nat) :
    (prismBlock P Q m n).filter (fun e => e.1 == r) =
      if m + n = r then prismBlock P Q m n else [] := by
  by_cases h : m + n = r
  · rw [if_pos h]
    apply List.filter_eq_self.mpr
    intro e he
    unfold prismBlock at he
    simp only [List.mem_flatMap, List.mem_map, List.mem_range] at he
    obtain ⟨i, _, j, _, rfl⟩ := he
    simpa using h
  · rw [if_neg h]
    apply List.filter_eq_nil_iff.mpr
    intro e he
    unfold prismBlock at he
    simp only [List.mem_flatMap, List.mem_map, List.mem_range] at he
    obtain ⟨i, _, j, _, rfl⟩ := he
    simpa using h

/-- The emissions of bucket `r`, decomposed into the blocks `(m, r − m)`
(the block exists when `n = r − m` lies in the inner loop's range). -/
theorem prismEmits_filter {V : Type} (P Q : PolyC V) (r : Nat) :
    (prismEmits P Q).filter (fun e => e.1 == r) =
      (List.range (topRank P + 1)).flatMap (fun m =>
        if (if m = 0 then 1 else 0) + m ≤ r ∧ r ≤ m + topRank Q
        then prismBlock P Q m (r - m) else []) := by
  rw [prismEmits_eq_blocks, List.filter_flatMap]
  apply flatMap_congr
  intro m _
  rw [List.filter_flatMap]
  have hrow : ∀ n ∈ List.range' (if m = 0 then 1 else 0)
      (topRank Q + 1 - (if m = 0 then 1 else 0)),
      (prismBlock P Q m n).filter (fun e => e.1 == r) =
        (fun n => if n = r - m ∧ m ≤ r then prismBlock P Q m n else []) n := by
    intro n _
    rw [prismBlock_filter]
    exact if_congr (by omega) rfl rfl
  rw [flatMap_congr _ _ _ hrow]
  by_cases hmr : m ≤ r
  · have hrow2 : ∀ n ∈ List.range' (if m = 0 then 1 else 0)
        (topRank Q + 1 - (if m = 0 then 1 else 0)),
        (fun n => if n = r - m ∧ m ≤ r then prismBlock P Q m n else []) n =
          (fun n => if n = r - m then prismBlock P Q m n else []) n := by
      intro n _
      exact if_congr (by tauto) rfl rfl
    rw [flatMap_congr _ _ _ hrow2, range'_flatMap_ite]
    by_cases hm0 : m = 0
    · subst hm0
      rw [if_pos rfl]
      exact if_congr (by omega) rfl rfl
    · rw [if_neg hm0]
      exact if_congr (by omega) rfl rfl
  · have hrow3 : ∀ n ∈ List.range' (if m = 0 then 1 else 0)
        (topRank Q + 1 - (if m = 0 then 1 else 0)),
        (fun n => if n = r - m ∧ m ≤ r then prismBlock P Q m n else []) n =
          (fun _ : Nat => ([] : List (Nat × ((Nat × Nat) × (Nat × Nat))))) n := by
      intro n _
      exact if_neg (by tauto)
    have hnone : ¬ ((if m = 0 then 1 else 0) + m ≤ r ∧ r ≤ m + topRank Q) := by
      intro hc
      apply hmr
      by_cases hm0 : m = 0
      · omega
      · rw [if_neg hm0] at hc; omega
    rw [flatMap_congr _ _ _ hrow3, if_neg hnone]
    simp

/-- The heart of C2: in the bucket-`(m + n)` emission list, position
`countPrism m n + (i·|Qₙ| + j)` — the value of `getIndexOfPrismProduct` —
holds exactly the emission of the pair `((m, i), (n, j))`. -/
theorem prism_position {V : Type} (P Q : PolyC V) (m n i j : Nat)
    (hm : m < elLen P) (hn : n < elLen Q)
    (hi : i < elSize P m) (hj : j < elSize Q n) (hr : 0 < m + n) :
    ((prismEmits P Q).filter (fun e => e.1 == m + n))[
      getIndexOfPrismProduct P Q m i n j]? = some (m + n, ((m, i), (n, j))) := by
  have htP : topRank P = elLen P - 1 := rfl
  have htQ : topRank Q = elLen Q - 1 := rfl
  have hcond : (if m = 0 then 1 else 0) + m ≤ m + n ∧ m + n ≤ m + topRank Q := by
    constructor
    · by_cases hm0 : m = 0
      · rw [if_pos hm0]; omega
      · rw [if_neg hm0]; omega
    · omega
  have hrowm : (if (if m = 0 then 1 else 0) + m ≤ m + n ∧ m + n ≤ m + topRank Q
      then prismBlock P Q m (m + n - m) else []) = prismBlock P Q m n := by
    rw [if_pos hcond, show m + n - m = n by omega]
  have hk : i * elSize Q n + j < elSize P m * elSize Q n := by
    calc i * elSize Q n + j < i * elSize Q n + elSize Q n := by omega
      _ = (i + 1) * elSize Q n := by ring
      _ ≤ elSize P m * elSize Q n := Nat.mul_le_mul_right _ (by omega)
  have hblock : (prismBlock P Q m n)[i * elSize Q n + j]? =
      some (m + n, ((m, i), (n, j))) := by
    unfold prismBlock
    rw [flatMap_lex_getElem? _ (elSize Q n) _ i j i (List.getElem?_range hi)
      (fun a _ => by simp) hj, List.getElem?_map, List.getElem?_range hj]
    rfl
  have hsum : ((List.range' 0 (m - 0)).map (fun x =>
      (if (if x = 0 then 1 else 0) + x ≤ m + n ∧ m + n ≤ x + topRank Q
        then prismBlock P Q x (m + n - x) else []).length)).sum
      = countPrism P Q m n := by
    rw [Nat.sub_zero, ← List.range_eq_range', countPrism_eq_sum P Q m n hn]
    apply sum_map_congr
    intro x hx
    rw [List.mem_range] at hx
    by_cases hc : m + n - x < elLen Q
    · have hcx : (if x = 0 then 1 else 0) + x ≤ m + n ∧ m + n ≤ x + topRank Q := by
        constructor
        · by_cases hx0 : x = 0
          · rw [if_pos hx0]; omega
          · rw [if_neg hx0]; omega
        · omega
      rw [if_pos hcx, if_pos hc, prismBlock_length]
    · have hcx : ¬ ((if x = 0 then 1 else 0) + x ≤ m + n ∧ m + n ≤ x + topRank Q) := by
        intro hcc
        rcases hcc with ⟨_, h2⟩
        rw [htQ] at h2
        omega
      rw [if_neg hcx, if_neg hc]
      rfl
  have hpos := getElem?_flatMap_range'
    (fun x => if (if x = 0 then 1 else 0) + x ≤ m + n ∧ m + n ≤ x + topRank Q
      then prismBlock P Q x (m + n - x) else [])
    (topRank P + 1) 0 m (i * elSize Q n + j) (by omega) (by omega)
    (by dsimp only; rw [hrowm, prismBlock_length]; exact hk)
  rw [prismEmits_filter, List.range_eq_range']
  simp only [getIndexOfPrismProduct]
  rw [← hsum, hpos]
  dsimp only
  rw [hrowm]
  exact hblock

theorem getD_map_range' {α : Type} (f : Nat → α) (s L c : Nat) (dflt : α)
    (h : c < L) : ((List.range' s L).map f).getD c dflt = f (s + c) := by
  unfold List.getD
  rw [List.get?_eq_getElem?, List.getElem?_map, List.getElem?_range' s 1 h]
  simp

/-- C2: for non-degenerate operands and valid ranks and indices, the
prism-product index lookup returns `count(m,n) + (i·|Q rank n| + j)`,
where `count` satisfies the claimed recursion with base cases `m = 0`
(minimum rank) and `n = |Q's element list| − 1` (maximum rank); that index
is exactly the position at which the pair `((m, i), (n, j))` is emitted
into the bucket-`(m + n)` list — which is the rank-`(m + n)` element list
of the product — and, for `m = n = 0`, the position of the vertex
`P[i] ++ Q[j]` in the product's vertex list. -/
theorem getIndexOfPrismProduct_correct (P Q : PolyC (List ℚ)) (m n i j : Nat)
    (hP : 2 ≤ elLen P) (hQ : 2 ≤ elLen Q)
    (hm : m < elLen P) (hn : n < elLen Q)
    (hi : i < elSize P m) (hj : j < elSize Q n) :
    getIndexOfPrismProduct P Q m i n j =
      countPrism P Q m n + (i * elSize Q n + j) ∧
    (m = 0 ∨ n = elLen Q - 1 → countPrism P Q m n = 0) ∧
    (0 < m → n ≠ elLen Q - 1 →
      countPrism P Q m n =
        countPrism P Q (m - 1) (n + 1) + elSize P (m - 1) * elSize Q (n + 1)) ∧
    (0 < m + n →
      rankCells (prismFn P Q) (m + n) = prismRankCells P Q (m + n) ∧
      (prismRankCells P Q (m + n))[getIndexOfPrismProduct P Q m i n j]? =
        some (prismCell P Q m i n j) ∧
      ((prismEmits P Q).filter (fun e => e.1 == m + n))[
        getIndexOfPrismProduct P Q m i n j]? = some (m + n, ((m, i), (n, j)))) ∧
    (m = 0 → n = 0 →
      (vertsOf (prismFn P Q))[getIndexOfPrismProduct P Q m i n j]? =
        some ((vertsOf P).getD i [] ++ (vertsOf Q).getD j [])) := by
  have htP : topRank P = elLen P - 1 := rfl
  have htQ : topRank Q = elLen Q - 1 := rfl
  have hdP : ¬ (dims P = 0) := by unfold dims; omega
  have hdQ : ¬ (dims Q = 0) := by unfold dims; omega
  obtain ⟨pv, pcs, hPe⟩ : ∃ pv pcs, P.elems = some (pv, pcs) := by
    rcases hPE : P.elems with _ | ⟨pv, pcs⟩
    · exfalso
      have h0 : elLen P = 0 := by unfold elLen; rw [hPE]
      omega
    · exact ⟨pv, pcs, rfl⟩
  obtain ⟨qv, qcs, hQe⟩ : ∃ qv qcs, Q.elems = some (qv, qcs) := by
    rcases hQE : Q.elems with _ | ⟨qv, qcs⟩
    · exfalso
      have h0 : elLen Q = 0 := by unfold elLen; rw [hQE]
      omega
    · exact ⟨qv, qcs, rfl⟩
  have hFn : prismFn P Q = ⟨some (prismVerts pv qv,
      (List.range' 1 (topRank P + topRank Q)).map (fun r => prismRankCells P Q r))⟩ := by
    unfold prismFn
    rw [if_neg hdP, if_neg hdQ, hPe, hQe]
  refine ⟨rfl, ?_, ?_, ?_, ?_⟩
  · rintro (hm0 | hntop)
    · subst hm0; rfl
    · cases m with
      | zero => rfl
      | succ m' =>
        show (if n = elLen Q - 1 then 0 else _) = 0
        rw [if_pos hntop]
  · intro hm0 hntop
    cases m with
    | zero => omega
    | succ m' =>
      show (if n = elLen Q - 1 then 0
        else countPrism P Q m' (n + 1) + elSize P m' * elSize Q (n + 1)) = _
      rw [if_neg hntop]
      simp only [Nat.add_sub_cancel]
  · intro hr
    have hrank : rankCells (prismFn P Q) (m + n) = prismRankCells P Q (m + n) := by
      rw [hFn]
      show ((List.range' 1 (topRank P + topRank Q)).map
        (fun r => prismRankCells P Q r)).getD (m + n - 1) [] = _
      rw [getD_map_range' _ 1 (topRank P + topRank Q) (m + n - 1) [] (by omega),
        show 1 + (m + n - 1) = m + n by omega]
    refine ⟨hrank, ?_, prism_position P Q m n i j hm hn hi hj hr⟩
    unfold prismRankCells
    rw [List.getElem?_map, prism_position P Q m n i j hm hn hi hj hr]
    rfl
  · intro hm0 hn0
    subst hm0; subst hn0
    have hvp : vertsOf P = pv := by unfold vertsOf; rw [hPe]
    have hvq : vertsOf Q = qv := by unfold vertsOf; rw [hQe]
    have h1 : elSize P 0 = pv.length := by
      show (vertsOf P).length = pv.length
      rw [hvp]
    have h2 : elSize Q 0 = qv.length := by
      show (vertsOf Q).length = qv.length
      rw [hvq]
    have hi' : i < pv.length := by omega
    have hj' : j < qv.length := by omega
    have hvFn : vertsOf (prismFn P Q) = prismVerts pv qv := by rw [hFn]; rfl
    have hidx : getIndexOfPrismProduct P Q 0 i 0 j = i * qv.length + j := by
      show countPrism P Q 0 0 + (i * elSize Q 0 + j) = _
      rw [h2]
      show 0 + (i * qv.length + j) = _
      omega
    rw [hvFn, hidx, hvp, hvq]
    unfold prismVerts
    have hx : pv[i]? = some (pv.getD i []) := by
      rw [List.getElem?_eq_getElem hi', List.getD_eq_getElem pv [] hi']
    rw [flatMap_lex_getElem? _ qv.length _ i j (pv.getD i []) hx
      (fun a _ => by simp) hj', List.getElem?_map, List.getElem?_eq_getElem hj',
      List.getD_eq_getElem qv [] hj']
    rfl

/-- C2 (witness): on two dyads (`m, i, n, j` = `1, 0, 0, 1`) the lookup
returns `countPrism 1 0 + (0·2 + 1) = 3`, and position 3 of the bucket-1
emission list is indeed the pair `((1, 0), (0, 1))`. -/
theorem getIndexOfPrismProduct_correct_witness :
    getIndexOfPrismProduct tegP tegQ 1 0 0 1 = 3 ∧
    ((prismEmits tegP tegQ).filter (fun e => e.1 == 1))[3]? =
      some (1, ((1, 0), (0, 1))) ∧
    (rankCells (prismFn tegP tegQ) 1)[3]? = some (prismCell tegP tegQ 1 0 0 1) := by
  have h := getIndexOfPrismProduct_correct tegP tegQ 1 0 0 1 (by decide) (by decide)
    (by decide) (by decide) (by decide) (by decide)
  obtain ⟨h1, _, _, h4, _⟩ := h
  obtain ⟨hrank, hcell, hemit⟩ := h4 (by decide)
  have e1 : getIndexOfPrismProduct tegP tegQ 1 0 0 1 = 3 := by decide
  rw [e1] at hemit hcell
  exact ⟨e1, hemit, by rw [hrank]; exact hcell⟩
